import Mathlib

/-!
Verification of the single-flight / broadcast-once library (`src/lib.rs`).

The library is modelled as a small-step transition system.  The shared
state consists of

* `mapping` — the keyed registry `Arc<RwLock<HashMap<K, BroadcastOnce<T>>>>`,
  modelled as an association list from keys to cell indices;
* `cells`   — every `Shared<T>` (`BroadcastOnce` payload) ever allocated:
  a value slot (`UnsafeCell<Option<T>>`) and the number of
  `notify_waiters` calls performed on its `Notify`;
* `calls`   — one record per invocation of `SingleFlight::work`, holding
  the key, the value its work producer would compute, the current phase
  of the returned future, and whether the producer closure has been
  invoked.

Atomic actions (`Act`) mirror the lock-protected or local steps of the
source:

* `Act.work k pv` — the synchronous body of `SingleFlight::work`
  (lines 130-146): under the upgradable read lock, look the key up; if
  present create a waiter (`BroadcastOnce::waiter`, which snapshots the
  `Notify` epoch like `Notify::notified()` does); if absent, upgrade,
  insert a fresh cell and invoke `func()` to build the owner's future.
  The upgradable lock serializes this whole block against other `work`
  calls and against `remove`, so it is one atomic action.
* `Act.finishWork i` — the owner's `fut.await` completing together with
  `mapping.write().remove(&key)` (lines 151-152); the completion of the
  user future touches no shared state, so it is merged with the
  subsequent locked removal.
* `Act.wake i` — `call.wake(output.clone())` (line 153, lines 81-84):
  write the slot, then `notify_waiters`; the two writes are ordered by
  the `Notify`'s internal synchronization, so waiters observe them
  together.
* `Act.wait i` — a waiter's `BroadcastOnceWaiter::wait` (lines 91-99)
  resuming: enabled once the cell's notify count exceeds the epoch the
  waiter registered at (tokio guarantees a `Notified` created before a
  `notify_waiters` call is woken by it); it then reads the slot, and
  panics (`expect("value not set unexpectedly")`) if the slot is empty.

A task that is abandoned simply has no further actions in the trace.
-/

namespace SingleFlightSpec

/-- Model of `Shared<T>` of the source: the value slot (`UnsafeCell<Option<T>>`)
plus its `Notify`, the latter modelled by the number of `notify_waiters`
calls performed on it so far. -/
structure Shared (V : Type) where
  slot : Option V
  notifyCount : Nat
deriving DecidableEq

/-- The phase of the future returned by one `SingleFlight::work` call. -/
inductive Phase (V : Type) where
  /-- Owner path: `func()` was invoked, `fut` not yet complete. -/
  | running (cell : Nat)
  /-- Owner path: `fut.await` finished with `out` and the registry entry
  was removed; `wake` not yet performed. -/
  | removedEntry (cell : Nat) (out : V)
  /-- Owner path: `wake` performed, future resolved with `out`. -/
  | doneOwner (cell : Nat) (out : V)
  /-- Waiter path: holds a `BroadcastOnceWaiter` on `cell`, registered at
  notify epoch `gen`. -/
  | waiting (cell : Nat) (gen : Nat)
  /-- Waiter path: `wait` resumed and returned `out`. -/
  | doneWaiter (cell : Nat) (out : V)
  /-- Waiter path: `wait` resumed but found the slot empty
  (`expect("value not set unexpectedly")`). -/
  | panicked
deriving DecidableEq

/-- One invocation of `SingleFlight::work`: its key, the value its work
producer computes, the phase of the returned future, and whether the
producer closure `func` has been invoked. -/
structure CallSt (K V : Type) where
  key : K
  prodVal : V
  phase : Phase V
  invoked : Bool
deriving DecidableEq

/-- Global state: the `SingleFlight` registry plus every allocated
broadcast cell and every `work` call made so far.  Cells are identified
by their index in `cells`, calls by their index in `calls`. -/
structure SFState (K V : Type) where
  mapping : List (K × Nat)
  cells : List (Shared V)
  calls : List (CallSt K V)
deriving DecidableEq

variable {K V : Type} [DecidableEq K]

/-- Model of `HashMap::get` on the association-list registry. -/
def lookup : List (K × Nat) → K → Option Nat
  | [], _ => none
  | (k, c) :: rest, k' => if k' = k then some c else lookup rest k'

/-- Model of `HashMap::remove(&key)`: delete the entry for `k` (by key only). -/
def removeKey : List (K × Nat) → K → List (K × Nat)
  | [], _ => []
  | (k1, c) :: rest, k =>
    if k1 = k then removeKey rest k else (k1, c) :: removeKey rest k

/-- The slot of cell `c` (empty for indices never allocated). -/
def slotOf (s : SFState K V) (c : Nat) : Option V :=
  match s.cells[c]? with
  | some cell => cell.slot
  | none => none

/-- The notify count of cell `c` (0 for indices never allocated). -/
def genOf (s : SFState K V) (c : Nat) : Nat :=
  match s.cells[c]? with
  | some cell => cell.notifyCount
  | none => 0

/-- The atomic actions of the system. -/
inductive Act (K V : Type) where
  /-- The synchronous body of `SingleFlight::work key func`, where the
  producer `func` would compute `pv`.  Appends a new call record. -/
  | work (key : K) (pv : V)
  /-- Owner call `i`: its work future completes and it removes the
  registry entry for its key. -/
  | finishWork (i : Nat)
  /-- Owner call `i`: `call.wake(output.clone())`. -/
  | wake (i : Nat)
  /-- Waiter call `i`: its `wait` future resumes (enabled only once the
  notify count exceeds its registration epoch). -/
  | wait (i : Nat)
deriving DecidableEq

/-- Small-step semantics.  Actions whose guard does not hold (e.g. waking
a call that is not an owner with a completed future, or resuming a waiter
that has not been notified) leave the state unchanged. -/
def exec (s : SFState K V) : Act K V → SFState K V
  | .work k pv =>
    match lookup s.mapping k with
    | some c =>
      match s.cells[c]? with
      | some cell =>
        { s with calls := s.calls ++ [⟨k, pv, .waiting c cell.notifyCount, false⟩] }
      | none => s
    | none =>
      { mapping := (k, s.cells.length) :: s.mapping
        cells := s.cells ++ [⟨none, 0⟩]
        calls := s.calls ++ [⟨k, pv, .running s.cells.length, true⟩] }
  | .finishWork i =>
    match s.calls[i]? with
    | some ci =>
      match ci.phase with
      | .running c =>
        { s with
          mapping := removeKey s.mapping ci.key
          calls := s.calls.set i { ci with phase := .removedEntry c ci.prodVal } }
      | _ => s
    | none => s
  | .wake i =>
    match s.calls[i]? with
    | some ci =>
      match ci.phase with
      | .removedEntry c out =>
        match s.cells[c]? with
        | some cell =>
          { s with
            cells := s.cells.set c ⟨some out, cell.notifyCount + 1⟩
            calls := s.calls.set i { ci with phase := .doneOwner c out } }
        | none => s
      | _ => s
    | none => s
  | .wait i =>
    match s.calls[i]? with
    | some ci =>
      match ci.phase with
      | .waiting c g =>
        match s.cells[c]? with
        | some cell =>
          if g < cell.notifyCount then
            match cell.slot with
            | some v =>
              { s with calls := s.calls.set i { ci with phase := .doneWaiter c v } }
            | none =>
              { s with calls := s.calls.set i { ci with phase := .panicked } }
          else s
        | none => s
      | _ => s
    | none => s

/-- The state of a freshly constructed `SingleFlight` (`Default`). -/
def initState : SFState K V := ⟨[], [], []⟩

/-- Run a trace of actions. -/
def run (s : SFState K V) (acts : List (Act K V)) : SFState K V :=
  acts.foldl exec s

/-- Reachable states of the system. -/
def Reach (s : SFState K V) : Prop :=
  ∃ acts, run initState acts = s

/-- The cell a call owns (it reserved the cell on the owner path). -/
def ownerCell : Phase V → Option Nat
  | .running c => some c
  | .removedEntry c _ => some c
  | .doneOwner c _ => some c
  | _ => none

/-- The cell a call is associated with (reserved or attached to). -/
def cellOf : Phase V → Option Nat
  | .running c => some c
  | .removedEntry c _ => some c
  | .doneOwner c _ => some c
  | .waiting c _ => some c
  | .doneWaiter c _ => some c
  | .panicked => none

/-- A call whose work is neither completed nor resolved: the owner still
running its work, or a waiter still suspended. -/
def inFlight : Phase V → Bool
  | .running _ => true
  | .waiting _ _ => true
  | _ => false

/-- The value a resolved future returned, if it has resolved. -/
def resolvedVal : Phase V → Option V
  | .doneOwner _ v => some v
  | .doneWaiter _ v => some v
  | _ => none

/-- Whether the caller-supplied work (the async body) has executed. -/
def executedWork : Phase V → Bool
  | .removedEntry _ _ => true
  | .doneOwner _ _ => true
  | _ => false

/-! ### Registry and list helper lemmas -/

theorem lookup_removeKey_self (m : List (K × Nat)) (k : K) :
    lookup (removeKey m k) k = none := by
  induction m with
  | nil => rfl
  | cons p rest ih =>
    rcases p with ⟨k1, c1⟩
    by_cases h : k1 = k
    · simpa [removeKey, h] using ih
    · simpa [removeKey, h, lookup, Ne.symm h] using ih

theorem lookup_removeKey_ne (m : List (K × Nat)) (k k' : K) (h : k ≠ k') :
    lookup (removeKey m k') k = lookup m k := by
  induction m with
  | nil => rfl
  | cons p rest ih =>
    rcases p with ⟨k1, c1⟩
    by_cases h1 : k1 = k'
    · subst h1
      simp [removeKey, lookup, h, ih]
    · by_cases h2 : k = k1 <;> simp [removeKey, lookup, h1, h2, ih]

theorem lookup_mem {m : List (K × Nat)} {k : K} {c : Nat}
    (h : lookup m k = some c) : (k, c) ∈ m := by
  induction m with
  | nil => simp [lookup] at h
  | cons p rest ih =>
    rcases p with ⟨k1, c1⟩
    by_cases h1 : k = k1
    · subst h1
      obtain rfl : c1 = c := by simpa [lookup] using h
      exact List.mem_cons_self _ _
    · exact List.mem_cons_of_mem _ (ih (by simpa [lookup, h1] using h))

theorem getElem?_append_one {α : Type} {l : List α} {x y : α} {i : Nat}
    (h : (l ++ [x])[i]? = some y) :
    l[i]? = some y ∨ (i = l.length ∧ y = x) := by
  rcases Nat.lt_trichotomy i l.length with hlt | heq | hgt
  · left; rwa [List.getElem?_append_left hlt] at h
  · right
    subst heq
    rw [List.getElem?_concat_length] at h
    exact ⟨rfl, (Option.some.injEq _ _ ▸ h).symm⟩
  · exfalso
    rw [List.getElem?_append_right (Nat.le_of_lt hgt)] at h
    have : i - l.length ≥ 1 := by omega
    rcases List.getElem?_eq_some_iff.1 h with ⟨hl, _⟩
    simp at hl
    omega

theorem getElem?_append_one_left {α : Type} {l : List α} {x y : α} {i : Nat}
    (h : l[i]? = some y) : (l ++ [x])[i]? = some y := by
  rcases List.getElem?_eq_some_iff.1 h with ⟨hl, _⟩
  rwa [List.getElem?_append_left hl]

theorem getElem?_set_cases {α : Type} (l : List α) (i0 i : Nat) (x : α) {y : α}
    (h : l[i]? = some y) :
    (l.set i0 x)[i]? = some y ∨ (i = i0 ∧ l[i0]? = some y ∧ (l.set i0 x)[i]? = some x) := by
  by_cases he : i = i0
  · subst he
    rcases List.getElem?_eq_some_iff.1 h with ⟨hl, _⟩
    exact Or.inr ⟨rfl, h, List.getElem?_set_self hl⟩
  · exact Or.inl (by rw [List.getElem?_set_ne (fun h' => he h'.symm)]; exact h)

theorem getElem?_set_rev {α : Type} {l : List α} {i0 i : Nat} {x y : α}
    (h : (l.set i0 x)[i]? = some y) :
    l[i]? = some y ∨ (i = i0 ∧ y = x ∧ i0 < l.length) := by
  by_cases he : i = i0
  · subst he
    rw [List.getElem?_set_self'] at h
    cases hl : l[i]? with
    | none => rw [hl] at h; simp at h
    | some z =>
      rw [hl] at h
      simp only [Option.map_eq_map, Option.map_some, Option.some.injEq] at h
      right
      refine ⟨rfl, h.symm, ?_⟩
      rcases List.getElem?_eq_some_iff.1 hl with ⟨hlt, _⟩
      exact hlt
  · left; rwa [List.getElem?_set_ne (fun h' => he h'.symm)] at h

/-! ### Shape of a step

Every step either leaves `calls` unchanged, appends one fresh call, or
rewrites the phase of exactly one existing call; and the phase rewrites
are exactly the transitions of the source. -/

theorem exec_calls_shape (s : SFState K V) (a : Act K V) :
    (exec s a).calls = s.calls ∨
    (∃ c0, (exec s a).calls = s.calls ++ [c0]) ∨
    (∃ i0 ci0 p, s.calls[i0]? = some ci0 ∧
      (exec s a).calls = s.calls.set i0 { ci0 with phase := p } ∧
      inFlight p = false ∧
      ownerCell p = ownerCell ci0.phase ∧
      (∀ c, ci0.phase = .running c → a = .finishWork i0) ∧
      (∀ c g, ci0.phase = .waiting c g → a = .wait i0) ∧
      (cellOf p = cellOf ci0.phase ∨
        (p = .panicked ∧ ∃ c g, ci0.phase = .waiting c g ∧
          slotOf s c = none ∧ g < genOf s c))) := by
  cases a with
  | work k pv =>
    simp only [exec]
    split
    · split
      · exact Or.inr (Or.inl ⟨_, rfl⟩)
      · exact Or.inl rfl
    · exact Or.inr (Or.inl ⟨_, rfl⟩)
  | finishWork i0 =>
    simp only [exec]
    split
    · rename_i ci0 hc0
      split
      · rename_i c hph
        refine Or.inr (Or.inr ⟨i0, ci0, _, hc0, rfl, rfl, ?_, ?_, ?_, ?_⟩)
        · rw [hph]; rfl
        · intro c' h'; rfl
        · intro c' g' h'; rw [hph] at h'; cases h'
        · rw [hph]; exact Or.inl rfl
      · exact Or.inl rfl
    · exact Or.inl rfl
  | wake i0 =>
    simp only [exec]
    split
    · rename_i ci0 hc0
      split
      · rename_i c out hph
        split
        · rename_i cell hcell
          refine Or.inr (Or.inr ⟨i0, ci0, _, hc0, rfl, rfl, ?_, ?_, ?_, ?_⟩)
          · rw [hph]; rfl
          · intro c' h'; rw [hph] at h'; cases h'
          · intro c' g' h'; rw [hph] at h'; cases h'
          · rw [hph]; exact Or.inl rfl
        · exact Or.inl rfl
      · exact Or.inl rfl
    · exact Or.inl rfl
  | wait i0 =>
    simp only [exec]
    split
    · rename_i ci0 hc0
      split
      · rename_i c g hph
        split
        · rename_i cell hcell
          split
          · rename_i hlt
            split
            · rename_i v hslot
              refine Or.inr (Or.inr ⟨i0, ci0, _, hc0, rfl, rfl, ?_, ?_, ?_, ?_⟩)
              · rw [hph]; rfl
              · intro c' h'; rw [hph] at h'; cases h'
              · intro c' g' h'; rfl
              · rw [hph]; exact Or.inl rfl
            · rename_i hslot
              refine Or.inr (Or.inr ⟨i0, ci0, _, hc0, rfl, rfl, ?_, ?_, ?_, ?_⟩)
              · rw [hph]; rfl
              · intro c' h'; rw [hph] at h'; cases h'
              · intro c' g' h'; rfl
              · refine Or.inr ⟨rfl, c, g, hph, ?_, ?_⟩
                · simp [slotOf, hcell, hslot]
                · simpa [genOf, hcell] using hlt
          · exact Or.inl rfl
        · exact Or.inl rfl
      · exact Or.inl rfl
    · exact Or.inl rfl

theorem exec_cells_shape (s : SFState K V) (a : Act K V) :
    (exec s a).cells = s.cells ∨
    ((exec s a).cells = s.cells ++ [⟨none, 0⟩]) ∨
    (∃ i0 ci0 c out cell, a = .wake i0 ∧ s.calls[i0]? = some ci0 ∧
      ci0.phase = .removedEntry c out ∧ s.cells[c]? = some cell ∧
      (exec s a).cells = s.cells.set c ⟨some out, cell.notifyCount + 1⟩) := by
  cases a with
  | work k pv =>
    simp only [exec]
    split
    · split
      · exact Or.inl rfl
      · exact Or.inl rfl
    · exact Or.inr (Or.inl rfl)
  | finishWork i0 =>
    simp only [exec]
    split
    · split
      · exact Or.inl rfl
      · exact Or.inl rfl
    · exact Or.inl rfl
  | wake i0 =>
    simp only [exec]
    split
    · rename_i ci0 hc0
      split
      · rename_i c out hph
        split
        · rename_i cell hcell
          exact Or.inr (Or.inr ⟨i0, ci0, c, out, cell, rfl, hc0, hph, hcell, rfl⟩)
        · exact Or.inl rfl
      · exact Or.inl rfl
    · exact Or.inl rfl
  | wait i0 =>
    simp only [exec]
    split
    · split
      · split
        · split
          · split
            · exact Or.inl rfl
            · exact Or.inl rfl
          · exact Or.inl rfl
        · exact Or.inl rfl
      · exact Or.inl rfl
    · exact Or.inl rfl

/-! ### Stability corollaries -/

theorem run_nil (s : SFState K V) : run s [] = s := rfl

theorem run_cons (s : SFState K V) (a : Act K V) (acts : List (Act K V)) :
    run s (a :: acts) = run (exec s a) acts := rfl

theorem run_append (s : SFState K V) (l1 l2 : List (Act K V)) :
    run s (l1 ++ l2) = run (run s l1) l2 :=
  List.foldl_append ..

theorem Reach.exec {s : SFState K V} (h : Reach s) (a : Act K V) :
    Reach (exec s a) := by
  rcases h with ⟨acts, rfl⟩
  exact ⟨acts ++ [a], by rw [run_append]; rfl⟩

theorem Reach.run {s : SFState K V} (h : Reach s) (acts : List (Act K V)) :
    Reach (SingleFlightSpec.run s acts) := by
  rcases h with ⟨acts0, rfl⟩
  exact ⟨acts0 ++ acts, by rw [run_append]⟩

theorem exec_calls_length (s : SFState K V) (a : Act K V) :
    s.calls.length ≤ (exec s a).calls.length := by
  rcases exec_calls_shape s a with h | ⟨c0, h⟩ | ⟨i0, ci0, p, _, h, _⟩ <;>
    simp [h]

/-- A step preserves key, produced value and invocation flag of every
existing call (only the phase ever changes). -/
theorem exec_fields_stable (s : SFState K V) (a : Act K V) {i : Nat} {ci : CallSt K V}
    (h : s.calls[i]? = some ci) :
    ∃ ci', (exec s a).calls[i]? = some ci' ∧ ci'.key = ci.key ∧
      ci'.prodVal = ci.prodVal ∧ ci'.invoked = ci.invoked := by
  rcases exec_calls_shape s a with hs | ⟨c0, hs⟩ | ⟨i0, ci0, p, hc0, hs, _⟩
  · exact ⟨ci, hs ▸ h, rfl, rfl, rfl⟩
  · exact ⟨ci, hs ▸ getElem?_append_one_left h, rfl, rfl, rfl⟩
  · rcases getElem?_set_cases s.calls i0 i { ci0 with phase := p } h with h' | ⟨he, hi0, h'⟩
    · exact ⟨ci, hs ▸ h', rfl, rfl, rfl⟩
    · obtain rfl : ci = ci0 := by rw [hi0] at hc0; exact Option.some.inj hc0
      exact ⟨{ ci with phase := p }, hs ▸ h', rfl, rfl, rfl⟩

theorem run_fields_stable (s : SFState K V) (acts : List (Act K V)) {i : Nat} {ci : CallSt K V}
    (h : s.calls[i]? = some ci) :
    ∃ ci', (run s acts).calls[i]? = some ci' ∧ ci'.key = ci.key ∧
      ci'.prodVal = ci.prodVal ∧ ci'.invoked = ci.invoked := by
  induction acts generalizing s ci with
  | nil => exact ⟨ci, h, rfl, rfl, rfl⟩
  | cons a rest ih =>
    rcases exec_fields_stable s a h with ⟨ci1, h1, e1, e2, e3⟩
    rcases ih (exec s a) h1 with ⟨ci2, h2, f1, f2, f3⟩
    exact ⟨ci2, by rw [run_cons]; exact h2, by rw [f1, e1], by rw [f2, e2],
      by rw [f3, e3]⟩

/-- An in-flight call after a step was already in exactly that state
before the step: phases only advance out of the in-flight set. -/
theorem exec_inFlight_rev (s : SFState K V) (a : Act K V) {i : Nat} {ci' : CallSt K V}
    (h : (exec s a).calls[i]? = some ci') (hf : inFlight ci'.phase = true)
    (hi : i < s.calls.length) : s.calls[i]? = some ci' := by
  rcases exec_calls_shape s a with hs | ⟨c0, hs⟩ | ⟨i0, ci0, p, hc0, hs, hp, _⟩
  · rwa [hs] at h
  · rw [hs, List.getElem?_append_left hi] at h; exact h
  · rw [hs] at h
    rcases getElem?_set_rev h with h' | ⟨he, hx, _⟩
    · exact h'
    · exfalso
      rw [hx] at hf
      simp only at hf
      rw [hp] at hf
      cases hf

/-- A running owner stays running (same cell, same fields) under any
action other than its own `finishWork`. -/
theorem exec_running_stable (s : SFState K V) (a : Act K V) {i : Nat} {ci : CallSt K V}
    {c : Nat} (h : s.calls[i]? = some ci) (hph : ci.phase = .running c)
    (ha : a ≠ .finishWork i) :
    (exec s a).calls[i]? = some ci := by
  rcases exec_calls_shape s a with hs | ⟨c0, hs⟩ | ⟨i0, ci0, p, hc0, hs, _, _, hrun, _, _⟩
  · rw [hs]; exact h
  · rw [hs]; exact getElem?_append_one_left h
  · rcases getElem?_set_cases s.calls i0 i { ci0 with phase := p } h with h' | ⟨he, hi0, h'⟩
    · rw [hs]; exact h'
    · obtain rfl : ci = ci0 := by rw [hi0] at hc0; exact Option.some.inj hc0
      exact absurd (he ▸ hrun c hph) ha

/-- A suspended waiter stays suspended (same registration) under any
action other than its own `wait`. -/
theorem exec_waiting_stable (s : SFState K V) (a : Act K V) {i : Nat} {ci : CallSt K V}
    {c g : Nat} (h : s.calls[i]? = some ci) (hph : ci.phase = .waiting c g)
    (ha : a ≠ .wait i) :
    (exec s a).calls[i]? = some ci := by
  rcases exec_calls_shape s a with hs | ⟨c0, hs⟩ | ⟨i0, ci0, p, hc0, hs, _, _, _, hwait, _⟩
  · rw [hs]; exact h
  · rw [hs]; exact getElem?_append_one_left h
  · rcases getElem?_set_cases s.calls i0 i { ci0 with phase := p } h with h' | ⟨he, hi0, h'⟩
    · rw [hs]; exact h'
    · obtain rfl : ci = ci0 := by rw [hi0] at hc0; exact Option.some.inj hc0
      exact absurd (he ▸ hwait c g hph) ha

/-- Notify counts never decrease. -/
theorem exec_genOf_mono (s : SFState K V) (a : Act K V) (c : Nat) :
    genOf s c ≤ genOf (exec s a) c := by
  rcases exec_cells_shape s a with hs | hs | ⟨i0, ci0, c0, out, cell, _, _, _, hcell, hs⟩
  · simp [genOf, hs]
  · unfold genOf
    rw [hs]
    by_cases hc : c < s.cells.length
    · rw [List.getElem?_append_left hc]
    · have h1 : s.cells[c]? = none := List.getElem?_eq_none (le_of_not_lt hc)
      rw [h1]
      exact Nat.zero_le _
  · unfold genOf
    rw [hs]
    by_cases he : c = c0
    · subst he
      rcases List.getElem?_eq_some_iff.1 hcell with ⟨hlt, _⟩
      simp only [hcell, List.getElem?_set_self hlt]
      exact Nat.le_succ _
    · rw [List.getElem?_set_ne (fun h' => he h'.symm)]

/-- If every owner that has removed its entry but not yet woken its cell
has an empty slot (true of all reachable states), then a set slot is
never overwritten: the single-assignment property of the value slot. -/
theorem exec_slot_stable (s : SFState K V) (a : Act K V) {c : Nat} {v : V}
    (hrem : ∀ (i0 : Nat) (ci0 : CallSt K V) (c0 : Nat) (out : V),
      s.calls[i0]? = some ci0 →
      ci0.phase = .removedEntry c0 out → slotOf s c0 = none)
    (h : slotOf s c = some v) : slotOf (exec s a) c = some v := by
  rcases exec_cells_shape s a with hs | hs | ⟨i0, ci0, c0, out, cell, _, hc0, hph, hcell, hs⟩
  · unfold slotOf at *; rw [hs]; exact h
  · unfold slotOf at *
    rw [hs]
    cases hc : s.cells[c]? with
    | none => rw [hc] at h; cases h
    | some cell =>
      rcases List.getElem?_eq_some_iff.1 hc with ⟨hlt, _⟩
      rw [List.getElem?_append_left hlt, hc]
      rw [hc] at h; exact h
  · have hne : c ≠ c0 := by
      intro he
      rw [he, hrem i0 ci0 c0 out hc0 hph] at h
      cases h
    unfold slotOf at *
    rw [hs, List.getElem?_set_ne (fun h' => hne h'.symm)]
    exact h

/-! ### The inductive invariant -/

structure Inv (s : SFState K V) : Prop where
  /-- Registered cells exist, are unwoken and have an empty slot: the
  registry entry is always removed before the cell is completed. -/
  reg_valid : ∀ (k : K) (c : Nat), lookup s.mapping k = some c →
    c < s.cells.length ∧ slotOf s c = none ∧ genOf s c = 0
  /-- A cell is registered under at most one key. -/
  reg_cell_inj : ∀ (k1 k2 : K) (c : Nat), lookup s.mapping k1 = some c →
    lookup s.mapping k2 = some c → k1 = k2
  /-- While an owner's work is running, the registry maps its key to its
  cell. -/
  owner_run : ∀ (i : Nat) (ci : CallSt K V) (c : Nat),
    s.calls[i]? = some ci → ci.phase = .running c →
    lookup s.mapping ci.key = some c
  /-- Every cell has at most one owner. -/
  owner_unique : ∀ (i j : Nat) (ci cj : CallSt K V) (c : Nat),
    s.calls[i]? = some ci → s.calls[j]? = some cj →
    ownerCell ci.phase = some c → ownerCell cj.phase = some c → i = j
  /-- Every allocated cell has an owner. -/
  owner_exists : ∀ c : Nat, c < s.cells.length →
    ∃ (i : Nat) (ci : CallSt K V), s.calls[i]? = some ci ∧
      ownerCell ci.phase = some c
  /-- An owner that removed its entry but has not woken its cell yet:
  the value is its own produced value, the cell is still empty and
  unwoken, and the cell is no longer registered under any key. -/
  removed_ok : ∀ (i : Nat) (ci : CallSt K V) (c : Nat) (out : V),
    s.calls[i]? = some ci → ci.phase = .removedEntry c out →
    out = ci.prodVal ∧ c < s.cells.length ∧ slotOf s c = none ∧
      genOf s c = 0 ∧ ∀ k : K, lookup s.mapping k ≠ some c
  /-- A finished owner: its cell holds exactly its produced value, was
  woken exactly once, and is no longer registered. -/
  done_owner_ok : ∀ (i : Nat) (ci : CallSt K V) (c : Nat) (out : V),
    s.calls[i]? = some ci → ci.phase = .doneOwner c out →
    out = ci.prodVal ∧ c < s.cells.length ∧ slotOf s c = some out ∧
      genOf s c = 1 ∧ ∀ k : K, lookup s.mapping k ≠ some c
  /-- Waiters hold existing cells and always registered at notify
  epoch 0 (before the sole wake). -/
  waiting_ok : ∀ (i : Nat) (ci : CallSt K V) (c g : Nat),
    s.calls[i]? = some ci → ci.phase = .waiting c g →
    c < s.cells.length ∧ g = 0
  /-- A resolved waiter returned exactly the value in its cell's slot. -/
  done_waiter_ok : ∀ (i : Nat) (ci : CallSt K V) (c : Nat) (v : V),
    s.calls[i]? = some ci → ci.phase = .doneWaiter c v →
    c < s.cells.length ∧ slotOf s c = some v
  /-- The notifier `notify_waiters` is called at most once per cell. -/
  gen_le : ∀ c : Nat, genOf s c ≤ 1
  /-- The slot is set exactly when the cell has been woken. -/
  slot_gen : ∀ c : Nat, slotOf s c = none ↔ genOf s c = 0
  /-- A set slot holds the value of the (finished) owner of that cell. -/
  slot_owner : ∀ (c : Nat) (v : V), slotOf s c = some v →
    ∃ (i : Nat) (ci : CallSt K V), s.calls[i]? = some ci ∧
      ci.phase = .doneOwner c v
  /-- The producer closure has been invoked exactly for owners. -/
  invoked_iff : ∀ (i : Nat) (ci : CallSt K V), s.calls[i]? = some ci →
    (ci.invoked = true ↔ ownerCell ci.phase ≠ none)
  /-- No waiter ever hits the `expect("value not set unexpectedly")`. -/
  no_panic : ∀ (i : Nat) (ci : CallSt K V), s.calls[i]? = some ci →
    ci.phase ≠ .panicked

theorem inv_init : Inv (initState (K := K) (V := V)) := by
  constructor <;> intros <;> simp_all [initState, lookup, slotOf, genOf]

/-! Helpers for list updates that replace the phase of one call. -/

theorem set_phase_rev {l : List (CallSt K V)} {i0 i : Nat} {ci0 d : CallSt K V}
    {p : Phase V} (hc0 : l[i0]? = some ci0)
    (h : (l.set i0 { ci0 with phase := p })[i]? = some d) :
    (i ≠ i0 ∧ l[i]? = some d) ∨ (i = i0 ∧ d = { ci0 with phase := p }) := by
  by_cases he : i = i0
  · subst he
    rcases List.getElem?_eq_some_iff.1 hc0 with ⟨hlt, _⟩
    rw [List.getElem?_set_self hlt] at h
    exact Or.inr ⟨rfl, (Option.some.inj h).symm⟩
  · rw [List.getElem?_set_ne (fun h' => he h'.symm)] at h
    exact Or.inl ⟨he, h⟩

theorem set_phase_fwd {l : List (CallSt K V)} {i0 i : Nat} {ci0 ci : CallSt K V}
    {p : Phase V} (hc0 : l[i0]? = some ci0) (h : l[i]? = some ci) :
    (i ≠ i0 ∧ (l.set i0 { ci0 with phase := p })[i]? = some ci) ∨
    (i = i0 ∧ ci = ci0 ∧
      (l.set i0 { ci0 with phase := p })[i]? = some { ci0 with phase := p }) := by
  by_cases he : i = i0
  · subst he
    obtain rfl : ci = ci0 := by rw [h] at hc0; exact Option.some.inj hc0
    rcases List.getElem?_eq_some_iff.1 h with ⟨hlt, _⟩
    exact Or.inr ⟨rfl, rfl, List.getElem?_set_self hlt⟩
  · exact Or.inl ⟨he, by rw [List.getElem?_set_ne (fun h' => he h'.symm)]; exact h⟩

/-- Owners only own allocated cells. -/
theorem owner_cell_lt {s : SFState K V} (hInv : Inv s) {i : Nat}
    {ci : CallSt K V} {c : Nat} (h : s.calls[i]? = some ci)
    (hoc : ownerCell ci.phase = some c) : c < s.cells.length := by
  cases hph : ci.phase with
  | running c' =>
    rw [hph] at hoc
    exact Option.some.inj hoc ▸ (hInv.reg_valid _ _ (hInv.owner_run i ci c' h hph)).1
  | removedEntry c' out =>
    rw [hph] at hoc
    exact Option.some.inj hoc ▸ (hInv.removed_ok i ci c' out h hph).2.1
  | doneOwner c' out =>
    rw [hph] at hoc
    exact Option.some.inj hoc ▸ (hInv.done_owner_ok i ci c' out h hph).2.1
  | waiting c' g => rw [hph] at hoc; cases hoc
  | doneWaiter c' v => rw [hph] at hoc; cases hoc
  | panicked => rw [hph] at hoc; cases hoc

theorem inv_work_waiter {s : SFState K V} (hInv : Inv s) {k : K} {pv : V}
    {c : Nat} {cell : Shared V} (hl : lookup s.mapping k = some c)
    (hcell : s.cells[c]? = some cell) :
    Inv { s with calls :=
      s.calls ++ [⟨k, pv, .waiting c cell.notifyCount, false⟩] } := by
  obtain ⟨hclen, hslot, hgen⟩ := hInv.reg_valid k c hl
  have hg0 : cell.notifyCount = 0 := by
    unfold genOf at hgen; rw [hcell] at hgen; exact hgen
  constructor
  case reg_valid => exact hInv.reg_valid
  case reg_cell_inj => exact hInv.reg_cell_inj
  case owner_run =>
    intro i ci c' h hph
    rcases getElem?_append_one h with h' | ⟨hi, hci⟩
    · exact hInv.owner_run i ci c' h' hph
    · rw [hci] at hph; simp at hph
  case owner_unique =>
    intro i j ci cj c' hi hj hoi hoj
    rcases getElem?_append_one hi with hi' | ⟨hi1, hi2⟩
    · rcases getElem?_append_one hj with hj' | ⟨hj1, hj2⟩
      · exact hInv.owner_unique i j ci cj c' hi' hj' hoi hoj
      · rw [hj2] at hoj; simp [ownerCell] at hoj
    · rw [hi2] at hoi; simp [ownerCell] at hoi
  case owner_exists =>
    intro c' hc'
    obtain ⟨i, ci, h, hoc⟩ := hInv.owner_exists c' hc'
    exact ⟨i, ci, getElem?_append_one_left h, hoc⟩
  case removed_ok =>
    intro i ci c' out h hph
    rcases getElem?_append_one h with h' | ⟨hi, hci⟩
    · exact hInv.removed_ok i ci c' out h' hph
    · rw [hci] at hph; simp at hph
  case done_owner_ok =>
    intro i ci c' out h hph
    rcases getElem?_append_one h with h' | ⟨hi, hci⟩
    · exact hInv.done_owner_ok i ci c' out h' hph
    · rw [hci] at hph; simp at hph
  case waiting_ok =>
    intro i ci c' g h hph
    rcases getElem?_append_one h with h' | ⟨hi, hci⟩
    · exact hInv.waiting_ok i ci c' g h' hph
    · rw [hci] at hph
      simp only [Phase.waiting.injEq] at hph
      obtain ⟨h1, h2⟩ := hph
      rw [← h1, ← h2]
      exact ⟨hclen, hg0⟩
  case done_waiter_ok =>
    intro i ci c' v h hph
    rcases getElem?_append_one h with h' | ⟨hi, hci⟩
    · exact hInv.done_waiter_ok i ci c' v h' hph
    · rw [hci] at hph; simp at hph
  case gen_le => exact hInv.gen_le
  case slot_gen => exact hInv.slot_gen
  case slot_owner =>
    intro c' v hv
    obtain ⟨i, ci, h, hph⟩ := hInv.slot_owner c' v hv
    exact ⟨i, ci, getElem?_append_one_left h, hph⟩
  case invoked_iff =>
    intro i ci h
    rcases getElem?_append_one h with h' | ⟨hi, hci⟩
    · exact hInv.invoked_iff i ci h'
    · rw [hci]; simp [ownerCell]
  case no_panic =>
    intro i ci h
    rcases getElem?_append_one h with h' | ⟨hi, hci⟩
    · exact hInv.no_panic i ci h'
    · rw [hci]; simp

theorem inv_work_owner {s : SFState K V} (hInv : Inv s) {k : K} {pv : V}
    (hl : lookup s.mapping k = none) :
    Inv { mapping := (k, s.cells.length) :: s.mapping
          cells := s.cells ++ [⟨none, 0⟩]
          calls := s.calls ++ [⟨k, pv, .running s.cells.length, true⟩] } := by
  have hslotL : ∀ c : Nat, c < s.cells.length →
      slotOf { mapping := ((k, s.cells.length) :: s.mapping : List (K × Nat))
               cells := s.cells ++ [(⟨none, 0⟩ : Shared V)]
               calls := s.calls ++ [⟨k, pv, .running s.cells.length, true⟩] } c
        = slotOf s c := by
    intro c hc
    unfold slotOf
    rw [List.getElem?_append_left hc]
  have hgenL : ∀ c : Nat, c < s.cells.length →
      genOf { mapping := ((k, s.cells.length) :: s.mapping : List (K × Nat))
              cells := s.cells ++ [(⟨none, 0⟩ : Shared V)]
              calls := s.calls ++ [⟨k, pv, .running s.cells.length, true⟩] } c
        = genOf s c := by
    intro c hc
    unfold genOf
    rw [List.getElem?_append_left hc]
  have hslotNew :
      slotOf { mapping := ((k, s.cells.length) :: s.mapping : List (K × Nat))
               cells := s.cells ++ [(⟨none, 0⟩ : Shared V)]
               calls := s.calls ++ [⟨k, pv, .running s.cells.length, true⟩] }
        s.cells.length = none := by
    unfold slotOf
    rw [List.getElem?_concat_length]
  have hgenNew :
      genOf { mapping := ((k, s.cells.length) :: s.mapping : List (K × Nat))
              cells := s.cells ++ [(⟨none, 0⟩ : Shared V)]
              calls := s.calls ++ [⟨k, pv, .running s.cells.length, true⟩] }
        s.cells.length = 0 := by
    unfold genOf
    rw [List.getElem?_concat_length]
  have hlookup : ∀ (k' : K) (c : Nat),
      lookup ((k, s.cells.length) :: s.mapping) k' = some c →
      (k' = k ∧ c = s.cells.length) ∨ (k' ≠ k ∧ lookup s.mapping k' = some c) := by
    intro k' c h
    by_cases he : k' = k
    · subst he
      rw [lookup, if_pos rfl] at h
      exact Or.inl ⟨rfl, (Option.some.inj h).symm⟩
    · rw [lookup, if_neg he] at h
      exact Or.inr ⟨he, h⟩
  have hcLT : ∀ (k' : K) (c : Nat), lookup s.mapping k' = some c →
      c < s.cells.length := fun k' c h => (hInv.reg_valid k' c h).1
  constructor
  case reg_valid =>
    intro k' c h
    rcases hlookup k' c h with ⟨he, rfl⟩ | ⟨hne, h'⟩
    · refine ⟨by simp, hslotNew, hgenNew⟩
    · obtain ⟨h1, h2, h3⟩ := hInv.reg_valid k' c h'
      refine ⟨by simp; omega, ?_, ?_⟩
      · rw [hslotL c h1]; exact h2
      · rw [hgenL c h1]; exact h3
  case reg_cell_inj =>
    intro k1 k2 c h1 h2
    rcases hlookup k1 c h1 with ⟨he1, rfl⟩ | ⟨hne1, h1'⟩
    · rcases hlookup k2 _ h2 with ⟨he2, _⟩ | ⟨hne2, h2'⟩
      · rw [he1, he2]
      · exact absurd (hcLT k2 _ h2') (lt_irrefl _)
    · rcases hlookup k2 c h2 with ⟨he2, rfl⟩ | ⟨hne2, h2'⟩
      · exact absurd (hcLT k1 _ h1') (lt_irrefl _)
      · exact hInv.reg_cell_inj k1 k2 c h1' h2'
  case owner_run =>
    intro i ci c h hph
    rcases getElem?_append_one h with h' | ⟨hi, hci⟩
    · have hold := hInv.owner_run i ci c h' hph
      have hne : ci.key ≠ k := by
        intro he; rw [he, hl] at hold; cases hold
      rw [lookup, if_neg hne]
      exact hold
    · rw [hci] at hph ⊢
      simp only [Phase.running.injEq] at hph
      rw [lookup, if_pos rfl, hph]
  case owner_unique =>
    intro i j ci cj c hi hj hoi hoj
    rcases getElem?_append_one hi with hi' | ⟨hi1, hi2⟩
    · rcases getElem?_append_one hj with hj' | ⟨hj1, hj2⟩
      · exact hInv.owner_unique i j ci cj c hi' hj' hoi hoj
      · exfalso
        rw [hj2] at hoj
        simp only [ownerCell, Option.some.injEq] at hoj
        have := owner_cell_lt hInv hi' hoi
        omega
    · rcases getElem?_append_one hj with hj' | ⟨hj1, hj2⟩
      · exfalso
        rw [hi2] at hoi
        simp only [ownerCell, Option.some.injEq] at hoi
        have := owner_cell_lt hInv hj' hoj
        omega
      · rw [hi1, hj1]
  case owner_exists =>
    intro c hc
    simp only [List.length_append, List.length_cons, List.length_nil] at hc
    by_cases he : c = s.cells.length
    · subst he
      exact ⟨s.calls.length, ⟨k, pv, .running s.cells.length, true⟩,
        List.getElem?_concat_length _ _, rfl⟩
    · have hc' : c < s.cells.length := by omega
      obtain ⟨i, ci, h, hoc⟩ := hInv.owner_exists c hc'
      exact ⟨i, ci, getElem?_append_one_left h, hoc⟩
  case removed_ok =>
    intro i ci c out h hph
    rcases getElem?_append_one h with h' | ⟨hi, hci⟩
    · obtain ⟨h1, h2, h3, h4, h5⟩ := hInv.removed_ok i ci c out h' hph
      refine ⟨h1, by simp; omega, ?_, ?_, ?_⟩
      · rw [hslotL c h2]; exact h3
      · rw [hgenL c h2]; exact h4
      · intro k' hk'
        rcases hlookup k' c hk' with ⟨_, he⟩ | ⟨_, h''⟩
        · omega
        · exact h5 k' h''
    · rw [hci] at hph; simp at hph
  case done_owner_ok =>
    intro i ci c out h hph
    rcases getElem?_append_one h with h' | ⟨hi, hci⟩
    · obtain ⟨h1, h2, h3, h4, h5⟩ := hInv.done_owner_ok i ci c out h' hph
      refine ⟨h1, by simp; omega, ?_, ?_, ?_⟩
      · rw [hslotL c h2]; exact h3
      · rw [hgenL c h2]; exact h4
      · intro k' hk'
        rcases hlookup k' c hk' with ⟨_, he⟩ | ⟨_, h''⟩
        · omega
        · exact h5 k' h''
    · rw [hci] at hph; simp at hph
  case waiting_ok =>
    intro i ci c g h hph
    rcases getElem?_append_one h with h' | ⟨hi, hci⟩
    · obtain ⟨h1, h2⟩ := hInv.waiting_ok i ci c g h' hph
      exact ⟨by simp; omega, h2⟩
    · rw [hci] at hph; simp at hph
  case done_waiter_ok =>
    intro i ci c v h hph
    rcases getElem?_append_one h with h' | ⟨hi, hci⟩
    · obtain ⟨h1, h2⟩ := hInv.done_waiter_ok i ci c v h' hph
      refine ⟨by simp; omega, ?_⟩
      rw [hslotL c h1]; exact h2
    · rw [hci] at hph; simp at hph
  case gen_le =>
    intro c
    rcases Nat.lt_trichotomy c s.cells.length with hc | hc | hc
    · rw [hgenL c hc]; exact hInv.gen_le c
    · subst hc; rw [hgenNew]; omega
    · unfold genOf
      rw [List.getElem?_eq_none (by simp; omega)]
      exact Nat.zero_le _
  case slot_gen =>
    intro c
    rcases Nat.lt_trichotomy c s.cells.length with hc | hc | hc
    · rw [hgenL c hc, hslotL c hc]; exact hInv.slot_gen c
    · subst hc; rw [hgenNew, hslotNew]; simp
    · unfold genOf slotOf
      rw [List.getElem?_eq_none (by simp; omega)]
      simp
  case slot_owner =>
    intro c v hv
    rcases Nat.lt_trichotomy c s.cells.length with hc | hc | hc
    · rw [hslotL c hc] at hv
      obtain ⟨i, ci, h, hph⟩ := hInv.slot_owner c v hv
      exact ⟨i, ci, getElem?_append_one_left h, hph⟩
    · subst hc; rw [hslotNew] at hv; cases hv
    · exfalso
      unfold slotOf at hv
      rw [List.getElem?_eq_none (by simp; omega)] at hv
      cases hv
  case invoked_iff =>
    intro i ci h
    rcases getElem?_append_one h with h' | ⟨hi, hci⟩
    · exact hInv.invoked_iff i ci h'
    · rw [hci]; simp [ownerCell]
  case no_panic =>
    intro i ci h
    rcases getElem?_append_one h with h' | ⟨hi, hci⟩
    · exact hInv.no_panic i ci h'
    · rw [hci]; simp

theorem inv_finish {s : SFState K V} (hInv : Inv s) {i0 : Nat} {ci0 : CallSt K V}
    {c : Nat} (hc0 : s.calls[i0]? = some ci0) (hph : ci0.phase = .running c) :
    Inv { s with
      mapping := removeKey s.mapping ci0.key
      calls := s.calls.set i0 { ci0 with phase := .removedEntry c ci0.prodVal } } := by
  have hlook : lookup s.mapping ci0.key = some c := hInv.owner_run i0 ci0 c hc0 hph
  obtain ⟨hclen, hslot, hgen⟩ := hInv.reg_valid _ _ hlook
  have hlookup : ∀ (k' : K) (c' : Nat),
      lookup (removeKey s.mapping ci0.key) k' = some c' →
      k' ≠ ci0.key ∧ lookup s.mapping k' = some c' := by
    intro k' c' h
    by_cases he : k' = ci0.key
    · subst he; rw [lookup_removeKey_self] at h; cases h
    · rw [lookup_removeKey_ne _ _ _ he] at h; exact ⟨he, h⟩
  constructor
  case reg_valid =>
    intro k' c' h
    exact hInv.reg_valid k' c' (hlookup k' c' h).2
  case reg_cell_inj =>
    intro k1 k2 c' h1 h2
    exact hInv.reg_cell_inj k1 k2 c' (hlookup _ _ h1).2 (hlookup _ _ h2).2
  case owner_run =>
    intro i ci c' h hph'
    rcases set_phase_rev hc0 h with ⟨hne, h'⟩ | ⟨he, hd⟩
    · have hold := hInv.owner_run i ci c' h' hph'
      have hkne : ci.key ≠ ci0.key := by
        intro hk
        rw [hk, hlook] at hold
        have hcc : c = c' := Option.some.inj hold
        exact hne (hInv.owner_unique i i0 ci ci0 c' h' hc0
          (by rw [hph']; rfl) (by rw [hph, hcc]; rfl))
      rw [lookup_removeKey_ne _ _ _ hkne]
      exact hold
    · rw [hd] at hph'; simp at hph'
  case owner_unique =>
    intro i j ci cj c' hi hj hoi hoj
    have hmap : ∀ (m : Nat) (cm : CallSt K V),
        (s.calls.set i0
          { ci0 with phase := .removedEntry c ci0.prodVal })[m]? = some cm →
        ownerCell cm.phase = some c' →
        ∃ dm : CallSt K V, s.calls[m]? = some dm ∧ ownerCell dm.phase = some c' := by
      intro m cm hm hom
      rcases set_phase_rev hc0 hm with ⟨hne, h'⟩ | ⟨he, hd⟩
      · exact ⟨cm, h', hom⟩
      · refine ⟨ci0, by rw [he]; exact hc0, ?_⟩
        rw [hd] at hom
        simp only [ownerCell] at hom
        rw [hph]
        simpa [ownerCell] using hom
    obtain ⟨di, hdi, hoi'⟩ := hmap i ci hi hoi
    obtain ⟨dj, hdj, hoj'⟩ := hmap j cj hj hoj
    exact hInv.owner_unique i j di dj c' hdi hdj hoi' hoj'
  case owner_exists =>
    intro c' hc'
    obtain ⟨i, ci, h, hoc⟩ := hInv.owner_exists c' hc'
    rcases set_phase_fwd (p := .removedEntry c ci0.prodVal) hc0 h with
      ⟨hne, h'⟩ | ⟨he, hci, h'⟩
    · exact ⟨i, ci, h', hoc⟩
    · refine ⟨i, _, h', ?_⟩
      rw [hci, hph] at hoc
      simpa [ownerCell] using hoc
  case removed_ok =>
    intro i ci c' out h hph'
    rcases set_phase_rev hc0 h with ⟨hne, h'⟩ | ⟨he, hd⟩
    · obtain ⟨h1, h2, h3, h4, h5⟩ := hInv.removed_ok i ci c' out h' hph'
      refine ⟨h1, h2, h3, h4, ?_⟩
      intro k' hk'
      exact h5 k' (hlookup k' c' hk').2
    · rw [hd] at hph'
      simp only [Phase.removedEntry.injEq] at hph'
      obtain ⟨he1, he2⟩ := hph'
      subst he1
      subst he2
      refine ⟨by rw [hd], hclen, hslot, hgen, ?_⟩
      intro k' hk'
      obtain ⟨hne', h''⟩ := hlookup k' c hk'
      exact hne' (hInv.reg_cell_inj k' ci0.key c h'' hlook)
  case done_owner_ok =>
    intro i ci c' out h hph'
    rcases set_phase_rev hc0 h with ⟨hne, h'⟩ | ⟨he, hd⟩
    · obtain ⟨h1, h2, h3, h4, h5⟩ := hInv.done_owner_ok i ci c' out h' hph'
      refine ⟨h1, h2, h3, h4, ?_⟩
      intro k' hk'
      exact h5 k' (hlookup k' c' hk').2
    · rw [hd] at hph'; simp at hph'
  case waiting_ok =>
    intro i ci c' g h hph'
    rcases set_phase_rev hc0 h with ⟨hne, h'⟩ | ⟨he, hd⟩
    · exact hInv.waiting_ok i ci c' g h' hph'
    · rw [hd] at hph'; simp at hph'
  case done_waiter_ok =>
    intro i ci c' v h hph'
    rcases set_phase_rev hc0 h with ⟨hne, h'⟩ | ⟨he, hd⟩
    · exact hInv.done_waiter_ok i ci c' v h' hph'
    · rw [hd] at hph'; simp at hph'
  case gen_le => exact hInv.gen_le
  case slot_gen => exact hInv.slot_gen
  case slot_owner =>
    intro c' v hv
    obtain ⟨i, ci, h, hphd⟩ := hInv.slot_owner c' v hv
    rcases set_phase_fwd (p := .removedEntry c ci0.prodVal) hc0 h with
      ⟨hne, h'⟩ | ⟨he, hci, h'⟩
    · exact ⟨i, ci, h', hphd⟩
    · rw [hci, hph] at hphd
      cases hphd
  case invoked_iff =>
    intro i ci h
    rcases set_phase_rev hc0 h with ⟨hne, h'⟩ | ⟨he, hd⟩
    · exact hInv.invoked_iff i ci h'
    · rw [hd]
      have hiff := hInv.invoked_iff i0 ci0 hc0
      rw [hph] at hiff
      simp only [ownerCell] at hiff ⊢
      simpa using hiff
  case no_panic =>
    intro i ci h
    rcases set_phase_rev hc0 h with ⟨hne, h'⟩ | ⟨he, hd⟩
    · exact hInv.no_panic i ci h'
    · rw [hd]; simp

theorem inv_wake {s : SFState K V} (hInv : Inv s) {i0 : Nat} {ci0 : CallSt K V}
    {c : Nat} {out : V} {cell : Shared V}
    (hc0 : s.calls[i0]? = some ci0) (hph : ci0.phase = .removedEntry c out)
    (hcell : s.cells[c]? = some cell) :
    Inv { s with
      cells := s.cells.set c ⟨some out, cell.notifyCount + 1⟩
      calls := s.calls.set i0 { ci0 with phase := .doneOwner c out } } := by
  obtain ⟨hout, hclen, hslot, hgen, hnomap⟩ := hInv.removed_ok i0 ci0 c out hc0 hph
  have hcnt0 : cell.notifyCount = 0 := by
    unfold genOf at hgen; rw [hcell] at hgen; exact hgen
  have hslotNe : ∀ c' : Nat, c' ≠ c →
      (s.cells.set c ⟨some out, cell.notifyCount + 1⟩)[c']? = s.cells[c']? := by
    intro c' hne
    exact List.getElem?_set_ne (fun h' => hne h'.symm)
  have hslotC : (s.cells.set c ⟨some out, cell.notifyCount + 1⟩)[c]? =
      some ⟨some out, cell.notifyCount + 1⟩ := List.getElem?_set_self hclen
  constructor
  case reg_valid =>
    intro k' c' h
    obtain ⟨h1, h2, h3⟩ := hInv.reg_valid k' c' h
    have hne : c' ≠ c := by
      intro he; subst he; exact hnomap k' h
    refine ⟨by rw [List.length_set]; exact h1, ?_, ?_⟩
    · unfold slotOf
      rw [hslotNe c' hne]
      exact h2
    · unfold genOf
      rw [hslotNe c' hne]
      exact h3
  case reg_cell_inj => exact hInv.reg_cell_inj
  case owner_run =>
    intro i ci c' h hph'
    rcases set_phase_rev hc0 h with ⟨hne, h'⟩ | ⟨he, hd⟩
    · exact hInv.owner_run i ci c' h' hph'
    · rw [hd] at hph'; simp at hph'
  case owner_unique =>
    intro i j ci cj c' hi hj hoi hoj
    have hmap : ∀ (m : Nat) (cm : CallSt K V),
        (s.calls.set i0 { ci0 with phase := .doneOwner c out })[m]? = some cm →
        ownerCell cm.phase = some c' →
        ∃ dm : CallSt K V, s.calls[m]? = some dm ∧ ownerCell dm.phase = some c' := by
      intro m cm hm hom
      rcases set_phase_rev hc0 hm with ⟨hne, h'⟩ | ⟨he, hd⟩
      · exact ⟨cm, h', hom⟩
      · refine ⟨ci0, by rw [he]; exact hc0, ?_⟩
        rw [hd] at hom
        simp only [ownerCell] at hom
        rw [hph]
        simpa [ownerCell] using hom
    obtain ⟨di, hdi, hoi'⟩ := hmap i ci hi hoi
    obtain ⟨dj, hdj, hoj'⟩ := hmap j cj hj hoj
    exact hInv.owner_unique i j di dj c' hdi hdj hoi' hoj'
  case owner_exists =>
    intro c' hc'
    rw [List.length_set] at hc'
    obtain ⟨i, ci, h, hoc⟩ := hInv.owner_exists c' hc'
    rcases set_phase_fwd (p := .doneOwner c out) hc0 h with
      ⟨hne, h'⟩ | ⟨he, hci, h'⟩
    · exact ⟨i, ci, h', hoc⟩
    · refine ⟨i, _, h', ?_⟩
      rw [hci, hph] at hoc
      simpa [ownerCell] using hoc
  case removed_ok =>
    intro i ci c' out' h hph'
    rcases set_phase_rev hc0 h with ⟨hne, h'⟩ | ⟨he, hd⟩
    · obtain ⟨h1, h2, h3, h4, h5⟩ := hInv.removed_ok i ci c' out' h' hph'
      have hcne : c' ≠ c := by
        intro hee
        subst hee
        exact hne (hInv.owner_unique i i0 ci ci0 c' h' hc0
          (by rw [hph']; rfl) (by rw [hph]; rfl))
      refine ⟨h1, by rw [List.length_set]; exact h2, ?_, ?_, h5⟩
      · unfold slotOf
        rw [hslotNe c' hcne]
        exact h3
      · unfold genOf
        rw [hslotNe c' hcne]
        exact h4
    · rw [hd] at hph'; simp at hph'
  case done_owner_ok =>
    intro i ci c' out' h hph'
    rcases set_phase_rev hc0 h with ⟨hne, h'⟩ | ⟨he, hd⟩
    · obtain ⟨h1, h2, h3, h4, h5⟩ := hInv.done_owner_ok i ci c' out' h' hph'
      have hcne : c' ≠ c := by
        intro hee
        subst hee
        exact hne (hInv.owner_unique i i0 ci ci0 c' h' hc0
          (by rw [hph']; rfl) (by rw [hph]; rfl))
      refine ⟨h1, by rw [List.length_set]; exact h2, ?_, ?_, h5⟩
      · unfold slotOf
        rw [hslotNe c' hcne]
        exact h3
      · unfold genOf
        rw [hslotNe c' hcne]
        exact h4
    · rw [hd] at hph'
      simp only [Phase.doneOwner.injEq] at hph'
      obtain ⟨he1, he2⟩ := hph'
      subst he1
      subst he2
      refine ⟨by rw [hd]; exact hout, by rw [List.length_set]; exact hclen,
        ?_, ?_, hnomap⟩
      · unfold slotOf
        rw [hslotC]
      · unfold genOf
        rw [hslotC]
        show cell.notifyCount + 1 = 1
        omega
  case waiting_ok =>
    intro i ci c' g h hph'
    rcases set_phase_rev hc0 h with ⟨hne, h'⟩ | ⟨he, hd⟩
    · obtain ⟨h1, h2⟩ := hInv.waiting_ok i ci c' g h' hph'
      exact ⟨by rw [List.length_set]; exact h1, h2⟩
    · rw [hd] at hph'; simp at hph'
  case done_waiter_ok =>
    intro i ci c' v h hph'
    rcases set_phase_rev hc0 h with ⟨hne, h'⟩ | ⟨he, hd⟩
    · obtain ⟨h1, h2⟩ := hInv.done_waiter_ok i ci c' v h' hph'
      have hcne : c' ≠ c := by
        intro hee
        subst hee
        rw [hslot] at h2
        cases h2
      refine ⟨by rw [List.length_set]; exact h1, ?_⟩
      unfold slotOf
      rw [hslotNe c' hcne]
      exact h2
    · rw [hd] at hph'; simp at hph'
  case gen_le =>
    intro c'
    by_cases hce : c' = c
    · subst hce
      unfold genOf
      rw [hslotC]
      show cell.notifyCount + 1 ≤ 1
      omega
    · unfold genOf
      rw [hslotNe c' hce]
      exact hInv.gen_le c'
  case slot_gen =>
    intro c'
    by_cases hce : c' = c
    · subst hce
      unfold genOf slotOf
      rw [hslotC]
      simp
    · unfold genOf slotOf
      rw [hslotNe c' hce]
      exact hInv.slot_gen c'
  case slot_owner =>
    intro c' v hv
    by_cases hce : c' = c
    · subst hce
      unfold slotOf at hv
      rw [hslotC] at hv
      obtain rfl : out = v := Option.some.inj hv
      rcases List.getElem?_eq_some_iff.1 hc0 with ⟨hi0lt, _⟩
      exact ⟨i0, { ci0 with phase := .doneOwner c' out },
        List.getElem?_set_self hi0lt, rfl⟩
    · unfold slotOf at hv
      rw [hslotNe c' hce] at hv
      obtain ⟨i, ci, h, hphd⟩ := hInv.slot_owner c' v (by unfold slotOf; exact hv)
      rcases set_phase_fwd (p := .doneOwner c out) hc0 h with
        ⟨hne, h'⟩ | ⟨he, hci, h'⟩
      · exact ⟨i, ci, h', hphd⟩
      · rw [hci, hph] at hphd
        cases hphd
  case invoked_iff =>
    intro i ci h
    rcases set_phase_rev hc0 h with ⟨hne, h'⟩ | ⟨he, hd⟩
    · exact hInv.invoked_iff i ci h'
    · rw [hd]
      have hiff := hInv.invoked_iff i0 ci0 hc0
      rw [hph] at hiff
      simp only [ownerCell] at hiff ⊢
      simpa using hiff
  case no_panic =>
    intro i ci h
    rcases set_phase_rev hc0 h with ⟨hne, h'⟩ | ⟨he, hd⟩
    · exact hInv.no_panic i ci h'
    · rw [hd]; simp

theorem inv_wait_some {s : SFState K V} (hInv : Inv s) {i0 : Nat} {ci0 : CallSt K V}
    {c g : Nat} {cell : Shared V} {v : V}
    (hc0 : s.calls[i0]? = some ci0) (hph : ci0.phase = .waiting c g)
    (hcell : s.cells[c]? = some cell) (hslot : cell.slot = some v) :
    Inv { s with calls := s.calls.set i0 { ci0 with phase := .doneWaiter c v } } := by
  have hslotS : slotOf s c = some v := by unfold slotOf; rw [hcell]; exact hslot
  obtain ⟨hclen, hg0⟩ := hInv.waiting_ok i0 ci0 c g hc0 hph
  constructor
  case reg_valid => exact hInv.reg_valid
  case reg_cell_inj => exact hInv.reg_cell_inj
  case owner_run =>
    intro i ci c' h hph'
    rcases set_phase_rev hc0 h with ⟨hne, h'⟩ | ⟨he, hd⟩
    · exact hInv.owner_run i ci c' h' hph'
    · rw [hd] at hph'; simp at hph'
  case owner_unique =>
    intro i j ci cj c' hi hj hoi hoj
    have hmap : ∀ (m : Nat) (cm : CallSt K V),
        (s.calls.set i0 { ci0 with phase := .doneWaiter c v })[m]? = some cm →
        ownerCell cm.phase = some c' →
        ∃ dm : CallSt K V, s.calls[m]? = some dm ∧ ownerCell dm.phase = some c' := by
      intro m cm hm hom
      rcases set_phase_rev hc0 hm with ⟨hne, h'⟩ | ⟨he, hd⟩
      · exact ⟨cm, h', hom⟩
      · rw [hd] at hom; simp [ownerCell] at hom
    obtain ⟨di, hdi, hoi'⟩ := hmap i ci hi hoi
    obtain ⟨dj, hdj, hoj'⟩ := hmap j cj hj hoj
    exact hInv.owner_unique i j di dj c' hdi hdj hoi' hoj'
  case owner_exists =>
    intro c' hc'
    obtain ⟨i, ci, h, hoc⟩ := hInv.owner_exists c' hc'
    rcases set_phase_fwd (p := .doneWaiter c v) hc0 h with
      ⟨hne, h'⟩ | ⟨he, hci, h'⟩
    · exact ⟨i, ci, h', hoc⟩
    · rw [hci, hph] at hoc
      simp [ownerCell] at hoc
  case removed_ok =>
    intro i ci c' out h hph'
    rcases set_phase_rev hc0 h with ⟨hne, h'⟩ | ⟨he, hd⟩
    · exact hInv.removed_ok i ci c' out h' hph'
    · rw [hd] at hph'; simp at hph'
  case done_owner_ok =>
    intro i ci c' out h hph'
    rcases set_phase_rev hc0 h with ⟨hne, h'⟩ | ⟨he, hd⟩
    · exact hInv.done_owner_ok i ci c' out h' hph'
    · rw [hd] at hph'; simp at hph'
  case waiting_ok =>
    intro i ci c' g' h hph'
    rcases set_phase_rev hc0 h with ⟨hne, h'⟩ | ⟨he, hd⟩
    · exact hInv.waiting_ok i ci c' g' h' hph'
    · rw [hd] at hph'; simp at hph'
  case done_waiter_ok =>
    intro i ci c' v' h hph'
    rcases set_phase_rev hc0 h with ⟨hne, h'⟩ | ⟨he, hd⟩
    · exact hInv.done_waiter_ok i ci c' v' h' hph'
    · rw [hd] at hph'
      simp only [Phase.doneWaiter.injEq] at hph'
      obtain ⟨he1, he2⟩ := hph'
      subst he1
      subst he2
      exact ⟨hclen, hslotS⟩
  case gen_le => exact hInv.gen_le
  case slot_gen => exact hInv.slot_gen
  case slot_owner =>
    intro c' v' hv
    obtain ⟨i, ci, h, hphd⟩ := hInv.slot_owner c' v' hv
    rcases set_phase_fwd (p := .doneWaiter c v) hc0 h with
      ⟨hne, h'⟩ | ⟨he, hci, h'⟩
    · exact ⟨i, ci, h', hphd⟩
    · rw [hci, hph] at hphd
      cases hphd
  case invoked_iff =>
    intro i ci h
    rcases set_phase_rev hc0 h with ⟨hne, h'⟩ | ⟨he, hd⟩
    · exact hInv.invoked_iff i ci h'
    · rw [hd]
      have hiff := hInv.invoked_iff i0 ci0 hc0
      rw [hph] at hiff
      simp only [ownerCell] at hiff ⊢
      simpa using hiff
  case no_panic =>
    intro i ci h
    rcases set_phase_rev hc0 h with ⟨hne, h'⟩ | ⟨he, hd⟩
    · exact hInv.no_panic i ci h'
    · rw [hd]; simp

/-- The panic branch of `BroadcastOnceWaiter::wait` cannot be taken in
any state satisfying the invariant: a notified waiter always finds the
slot set. -/
theorem inv_wait_none_absurd {s : SFState K V} (hInv : Inv s) {i0 : Nat}
    {ci0 : CallSt K V} {c g : Nat} {cell : Shared V}
    (hc0 : s.calls[i0]? = some ci0) (hph : ci0.phase = .waiting c g)
    (hcell : s.cells[c]? = some cell) (hlt : g < cell.notifyCount)
    (hslot : cell.slot = none) : False := by
  have hgen : genOf s c = 0 :=
    (hInv.slot_gen c).1 (by unfold slotOf; rw [hcell]; exact hslot)
  unfold genOf at hgen
  rw [hcell] at hgen
  have h0 : cell.notifyCount = 0 := hgen
  omega

/-- The invariant is inductive: every step preserves it. -/
theorem inv_exec {s : SFState K V} (hInv : Inv s) (a : Act K V) :
    Inv (exec s a) := by
  cases a with
  | work k pv =>
    simp only [exec]
    split
    · rename_i c hl
      split
      · rename_i cell hcell
        exact inv_work_waiter hInv hl hcell
      · exact hInv
    · rename_i hl
      exact inv_work_owner hInv hl
  | finishWork i0 =>
    simp only [exec]
    split
    · rename_i ci0 hc0
      split
      · rename_i c hph
        exact inv_finish hInv hc0 hph
      · exact hInv
    · exact hInv
  | wake i0 =>
    simp only [exec]
    split
    · rename_i ci0 hc0
      split
      · rename_i c out hph
        split
        · rename_i cell hcell
          exact inv_wake hInv hc0 hph hcell
        · exact hInv
      · exact hInv
    · exact hInv
  | wait i0 =>
    simp only [exec]
    split
    · rename_i ci0 hc0
      split
      · rename_i c g hph
        split
        · rename_i cell hcell
          split
          · rename_i hlt
            split
            · rename_i v hslot
              exact inv_wait_some hInv hc0 hph hcell hslot
            · rename_i hslot
              exact (inv_wait_none_absurd hInv hc0 hph hcell hlt hslot).elim
          · exact hInv
        · exact hInv
      · exact hInv
    · exact hInv

theorem run_inv {s : SFState K V} (hInv : Inv s) (acts : List (Act K V)) :
    Inv (run s acts) := by
  induction acts generalizing s with
  | nil => exact hInv
  | cons a rest ih => exact ih (inv_exec hInv a)

/-- Every reachable state satisfies the invariant. -/
theorem reach_inv {s : SFState K V} (h : Reach s) : Inv s := by
  rcases h with ⟨acts, rfl⟩
  exact run_inv inv_init acts

/-! ### Step computation lemmas -/

theorem exec_work_waiter_eq {s : SFState K V} {k : K} {pv : V} {c : Nat}
    {cell : Shared V} (hl : lookup s.mapping k = some c)
    (hcell : s.cells[c]? = some cell) :
    exec s (.work k pv) =
      { s with calls := s.calls ++ [⟨k, pv, .waiting c cell.notifyCount, false⟩] } := by
  simp only [exec, hl, hcell]

theorem exec_work_owner_eq {s : SFState K V} {k : K} {pv : V}
    (hl : lookup s.mapping k = none) :
    exec s (.work k pv) =
      { mapping := (k, s.cells.length) :: s.mapping
        cells := s.cells ++ [⟨none, 0⟩]
        calls := s.calls ++ [⟨k, pv, .running s.cells.length, true⟩] } := by
  simp only [exec, hl]

theorem exec_finishWork_eq {s : SFState K V} {i : Nat} {ci : CallSt K V} {c : Nat}
    (h : s.calls[i]? = some ci) (hph : ci.phase = .running c) :
    exec s (.finishWork i) =
      { s with
        mapping := removeKey s.mapping ci.key
        calls := s.calls.set i { ci with phase := .removedEntry c ci.prodVal } } := by
  simp only [exec, h, hph]

theorem exec_wake_eq {s : SFState K V} {i : Nat} {ci : CallSt K V} {c : Nat}
    {out : V} {cell : Shared V} (h : s.calls[i]? = some ci)
    (hph : ci.phase = .removedEntry c out) (hcell : s.cells[c]? = some cell) :
    exec s (.wake i) =
      { s with
        cells := s.cells.set c ⟨some out, cell.notifyCount + 1⟩
        calls := s.calls.set i { ci with phase := .doneOwner c out } } := by
  simp only [exec, h, hph, hcell]

theorem exec_wait_resolve_eq {s : SFState K V} {i : Nat} {ci : CallSt K V}
    {c g : Nat} {cell : Shared V} {v : V} (h : s.calls[i]? = some ci)
    (hph : ci.phase = .waiting c g) (hcell : s.cells[c]? = some cell)
    (hlt : g < cell.notifyCount) (hslot : cell.slot = some v) :
    exec s (.wait i) =
      { s with calls := s.calls.set i { ci with phase := .doneWaiter c v } } := by
  simp only [exec, h, hph, hcell, if_pos hlt, hslot]

theorem exec_wait_blocked_eq {s : SFState K V} {i : Nat} {ci : CallSt K V}
    {c g : Nat} {cell : Shared V} (h : s.calls[i]? = some ci)
    (hph : ci.phase = .waiting c g) (hcell : s.cells[c]? = some cell)
    (hge : ¬ g < cell.notifyCount) :
    exec s (.wait i) = s := by
  simp only [exec, h, hph, hcell, if_neg hge]

theorem exec_work_noop_cell {s : SFState K V} {k : K} {pv : V} {c : Nat}
    (hl : lookup s.mapping k = some c) (hcell : s.cells[c]? = none) :
    exec s (.work k pv) = s := by
  simp only [exec, hl, hcell]

theorem exec_finishWork_noop_none {s : SFState K V} {i : Nat}
    (h : s.calls[i]? = none) : exec s (.finishWork i) = s := by
  simp only [exec, h]

theorem exec_finishWork_noop_phase {s : SFState K V} {i : Nat} {ci : CallSt K V}
    (h : s.calls[i]? = some ci) (hph : ∀ c : Nat, ci.phase ≠ .running c) :
    exec s (.finishWork i) = s := by
  simp only [exec, h]

theorem exec_wake_noop_none {s : SFState K V} {i : Nat}
    (h : s.calls[i]? = none) : exec s (.wake i) = s := by
  simp only [exec, h]

theorem exec_wake_noop_phase {s : SFState K V} {i : Nat} {ci : CallSt K V}
    (h : s.calls[i]? = some ci)
    (hph : ∀ (c : Nat) (out : V), ci.phase ≠ .removedEntry c out) :
    exec s (.wake i) = s := by
  simp only [exec, h]

theorem exec_wake_noop_cell {s : SFState K V} {i : Nat} {ci : CallSt K V}
    {c : Nat} {out : V} (h : s.calls[i]? = some ci)
    (hph : ci.phase = .removedEntry c out) (hcell : s.cells[c]? = none) :
    exec s (.wake i) = s := by
  simp only [exec, h, hph, hcell]

theorem exec_wait_noop_none {s : SFState K V} {i : Nat}
    (h : s.calls[i]? = none) : exec s (.wait i) = s := by
  simp only [exec, h]

theorem exec_wait_noop_phase {s : SFState K V} {i : Nat} {ci : CallSt K V}
    (h : s.calls[i]? = some ci)
    (hph : ∀ c g : Nat, ci.phase ≠ .waiting c g) :
    exec s (.wait i) = s := by
  simp only [exec, h]

theorem exec_wait_noop_cell {s : SFState K V} {i : Nat} {ci : CallSt K V}
    {c g : Nat} (h : s.calls[i]? = some ci) (hph : ci.phase = .waiting c g)
    (hcell : s.cells[c]? = none) : exec s (.wait i) = s := by
  simp only [exec, h, hph, hcell]

theorem exec_wait_panic_eq {s : SFState K V} {i : Nat} {ci : CallSt K V}
    {c g : Nat} {cell : Shared V} (h : s.calls[i]? = some ci)
    (hph : ci.phase = .waiting c g) (hcell : s.cells[c]? = some cell)
    (hlt : g < cell.notifyCount) (hslot : cell.slot = none) :
    exec s (.wait i) =
      { s with calls := s.calls.set i { ci with phase := .panicked } } := by
  simp only [exec, h, hph, hcell, if_pos hlt, hslot]

theorem exec_calls_length_nonwork (s : SFState K V) (a : Act K V)
    (ha : ∀ (k : K) (pv : V), a ≠ .work k pv) :
    (exec s a).calls.length = s.calls.length := by
  cases a with
  | work k pv => exact absurd rfl (ha k pv)
  | finishWork i =>
    simp only [exec]
    split
    · split
      · simp
      · rfl
    · rfl
  | wake i =>
    simp only [exec]
    split
    · split
      · split
        · simp
        · rfl
      · rfl
    · rfl
  | wait i =>
    simp only [exec]
    split
    · split
      · split
        · split
          · split
            · simp
            · simp
          · rfl
        · rfl
      · rfl
    · rfl

theorem exec_wake_mapping (s : SFState K V) (i : Nat) :
    (exec s (.wake i)).mapping = s.mapping := by
  simp only [exec]
  split
  · split
    · split
      · rfl
      · rfl
    · rfl
  · rfl

/-! ### More stability lemmas -/

theorem ownerCell_cellOf {p : Phase V} {c : Nat} (h : ownerCell p = some c) :
    cellOf p = some c := by
  cases p <;> simpa [ownerCell, cellOf] using h

/-- Every call's associated cell is allocated. -/
theorem cell_of_lt {s : SFState K V} (hInv : Inv s) {i : Nat}
    {ci : CallSt K V} {c : Nat} (h : s.calls[i]? = some ci)
    (hc : cellOf ci.phase = some c) : c < s.cells.length := by
  cases hph : ci.phase with
  | running c' =>
    rw [hph] at hc
    exact Option.some.inj hc ▸ owner_cell_lt hInv h (by rw [hph]; rfl)
  | removedEntry c' out =>
    rw [hph] at hc
    exact Option.some.inj hc ▸ owner_cell_lt hInv h (by rw [hph]; rfl)
  | doneOwner c' out =>
    rw [hph] at hc
    exact Option.some.inj hc ▸ owner_cell_lt hInv h (by rw [hph]; rfl)
  | waiting c' g =>
    rw [hph] at hc
    exact Option.some.inj hc ▸ (hInv.waiting_ok i ci c' g h hph).1
  | doneWaiter c' v =>
    rw [hph] at hc
    exact Option.some.inj hc ▸ (hInv.done_waiter_ok i ci c' v h hph).1
  | panicked => rw [hph] at hc; cases hc

/-- A step preserves the associated cell of every call (under the
invariant, which rules out the panic transition). -/
theorem exec_cellOf_stable {s : SFState K V} (hInv : Inv s) (a : Act K V)
    {i : Nat} {ci : CallSt K V} {c : Nat} (h : s.calls[i]? = some ci)
    (hc : cellOf ci.phase = some c) :
    ∃ ci', (exec s a).calls[i]? = some ci' ∧ cellOf ci'.phase = some c ∧
      ci'.key = ci.key ∧ ci'.prodVal = ci.prodVal ∧ ci'.invoked = ci.invoked := by
  rcases exec_calls_shape s a with hs | ⟨c0, hs⟩ |
    ⟨i0, ci0, p, hc0, hs, _, _, _, _, hcell⟩
  · exact ⟨ci, hs ▸ h, hc, rfl, rfl, rfl⟩
  · exact ⟨ci, hs ▸ getElem?_append_one_left h, hc, rfl, rfl, rfl⟩
  · rcases getElem?_set_cases s.calls i0 i { ci0 with phase := p } h with
      h' | ⟨he, hi0, h'⟩
    · exact ⟨ci, hs ▸ h', hc, rfl, rfl, rfl⟩
    · obtain rfl : ci = ci0 := by rw [hi0] at hc0; exact Option.some.inj hc0
      rcases hcell with hceq | ⟨hp, c2, g2, hw, hsl, hgt⟩
      · refine ⟨{ ci with phase := p }, hs ▸ h', ?_, rfl, rfl, rfl⟩
        show cellOf p = some c
        rw [hceq]
        exact hc
      · exfalso
        obtain ⟨_, hg20⟩ := hInv.waiting_ok i0 ci c2 g2 hc0 hw
        have := (hInv.slot_gen c2).1 hsl
        omega

theorem run_cellOf_stable {s : SFState K V} (hs : Reach s) (acts : List (Act K V))
    {i : Nat} {ci : CallSt K V} {c : Nat} (h : s.calls[i]? = some ci)
    (hc : cellOf ci.phase = some c) :
    ∃ ci', (run s acts).calls[i]? = some ci' ∧ cellOf ci'.phase = some c ∧
      ci'.key = ci.key ∧ ci'.prodVal = ci.prodVal ∧ ci'.invoked = ci.invoked := by
  induction acts generalizing s ci with
  | nil => exact ⟨ci, h, hc, rfl, rfl, rfl⟩
  | cons a rest ih =>
    obtain ⟨ci1, h1, hc1, e1, e2, e3⟩ := exec_cellOf_stable (reach_inv hs) a h hc
    obtain ⟨ci2, h2, hc2, f1, f2, f3⟩ := ih (hs.exec a) h1 hc1
    exact ⟨ci2, by rw [run_cons]; exact h2, hc2, by rw [f1, e1], by rw [f2, e2],
      by rw [f3, e3]⟩

/-- A step preserves the owner-cell of every call. -/
theorem exec_ownerCell_stable (s : SFState K V) (a : Act K V)
    {i : Nat} {ci : CallSt K V} (h : s.calls[i]? = some ci) :
    ∃ ci', (exec s a).calls[i]? = some ci' ∧
      ownerCell ci'.phase = ownerCell ci.phase ∧
      ci'.key = ci.key ∧ ci'.prodVal = ci.prodVal ∧ ci'.invoked = ci.invoked := by
  rcases exec_calls_shape s a with hs | ⟨c0, hs⟩ |
    ⟨i0, ci0, p, hc0, hs, _, ho, _⟩
  · exact ⟨ci, hs ▸ h, rfl, rfl, rfl, rfl⟩
  · exact ⟨ci, hs ▸ getElem?_append_one_left h, rfl, rfl, rfl, rfl⟩
  · rcases getElem?_set_cases s.calls i0 i { ci0 with phase := p } h with
      h' | ⟨he, hi0, h'⟩
    · exact ⟨ci, hs ▸ h', rfl, rfl, rfl, rfl⟩
    · obtain rfl : ci = ci0 := by rw [hi0] at hc0; exact Option.some.inj hc0
      exact ⟨{ ci with phase := p }, hs ▸ h', ho, rfl, rfl, rfl⟩

theorem run_ownerCell_stable (s : SFState K V) (acts : List (Act K V))
    {i : Nat} {ci : CallSt K V} (h : s.calls[i]? = some ci) :
    ∃ ci', (run s acts).calls[i]? = some ci' ∧
      ownerCell ci'.phase = ownerCell ci.phase ∧
      ci'.key = ci.key ∧ ci'.prodVal = ci.prodVal ∧ ci'.invoked = ci.invoked := by
  induction acts generalizing s ci with
  | nil => exact ⟨ci, h, rfl, rfl, rfl, rfl⟩
  | cons a rest ih =>
    obtain ⟨ci1, h1, hc1, e1, e2, e3⟩ := exec_ownerCell_stable s a h
    obtain ⟨ci2, h2, hc2, f1, f2, f3⟩ := ih (exec s a) h1
    exact ⟨ci2, by rw [run_cons]; exact h2, by rw [hc2, hc1], by rw [f1, e1],
      by rw [f2, e2], by rw [f3, e3]⟩

theorem reach_slot_stable {s : SFState K V} (hs : Reach s)
    (acts : List (Act K V)) {c : Nat} {v : V} (h : slotOf s c = some v) :
    slotOf (run s acts) c = some v := by
  induction acts generalizing s with
  | nil => exact h
  | cons a rest ih =>
    have hInv := reach_inv hs
    exact ih (hs.exec a) (exec_slot_stable s a
      (fun i0 ci0 c0 out h0 hph => (hInv.removed_ok i0 ci0 c0 out h0 hph).2.2.1) h)

/-- A registered cell's owner exists, is still running its work, and is
registered under exactly the cell's key. -/
theorem registered_owner_running {s : SFState K V} (hInv : Inv s) {k : K}
    {c : Nat} (hl : lookup s.mapping k = some c) :
    ∃ (j : Nat) (cj : CallSt K V), s.calls[j]? = some cj ∧
      cj.phase = .running c ∧ cj.key = k := by
  obtain ⟨hclen, _, _⟩ := hInv.reg_valid k c hl
  obtain ⟨j, cj, hj, hoc⟩ := hInv.owner_exists c hclen
  cases hph : cj.phase with
  | running c' =>
    rw [hph] at hoc
    obtain rfl : c = c' := (Option.some.inj hoc).symm
    have hkey : cj.key = k :=
      hInv.reg_cell_inj cj.key k c (hInv.owner_run j cj c hj hph) hl
    exact ⟨j, cj, hj, hph, hkey⟩
  | removedEntry c' out =>
    rw [hph] at hoc
    obtain rfl : c = c' := (Option.some.inj hoc).symm
    exact absurd hl ((hInv.removed_ok j cj c out hj hph).2.2.2.2 k)
  | doneOwner c' out =>
    rw [hph] at hoc
    obtain rfl : c = c' := (Option.some.inj hoc).symm
    exact absurd hl ((hInv.done_owner_ok j cj c out hj hph).2.2.2.2 k)
  | waiting c' g => rw [hph] at hoc; cases hoc
  | doneWaiter c' v => rw [hph] at hoc; cases hoc
  | panicked => rw [hph] at hoc; cases hoc

/-- Any resolved call associated with cell `c` returned the produced
value of (any) owner of `c`. -/
theorem resolved_matches_owner {s : SFState K V} (hInv : Inv s) {i j : Nat}
    {ci cj : CallSt K V} {c : Nat} {v : V}
    (hi : s.calls[i]? = some ci) (hcell : cellOf ci.phase = some c)
    (hv : resolvedVal ci.phase = some v)
    (hj : s.calls[j]? = some cj) (hoj : ownerCell cj.phase = some c) :
    v = cj.prodVal := by
  cases hph : ci.phase with
  | running c' => rw [hph] at hv; cases hv
  | removedEntry c' out => rw [hph] at hv; cases hv
  | waiting c' g => rw [hph] at hv; cases hv
  | panicked => rw [hph] at hv; cases hv
  | doneOwner c' out =>
    rw [hph] at hv hcell
    obtain rfl : v = out := (Option.some.inj hv).symm
    obtain rfl : c = c' := (Option.some.inj hcell).symm
    obtain rfl : i = j :=
      hInv.owner_unique i j ci cj c hi hj (by rw [hph]; rfl) hoj
    obtain rfl : ci = cj := by rw [hi] at hj; exact Option.some.inj hj
    exact (hInv.done_owner_ok i ci c v hi hph).1
  | doneWaiter c' out =>
    rw [hph] at hv hcell
    obtain rfl : v = out := (Option.some.inj hv).symm
    obtain rfl : c = c' := (Option.some.inj hcell).symm
    obtain ⟨_, hslot⟩ := hInv.done_waiter_ok i ci c v hi hph
    obtain ⟨m, cm, hm, hphm⟩ := hInv.slot_owner c v hslot
    obtain rfl : m = j :=
      hInv.owner_unique m j cm cj c hm hj (by rw [hphm]; rfl) hoj
    obtain rfl : cm = cj := by rw [hm] at hj; exact Option.some.inj hj
    exact (hInv.done_owner_ok m cm c v hm hphm).1

/-! ### Attachment: while no same-key call has completed, all calls for
the key share one cell, which is the live registry entry. -/

theorem attach_same_cell (acts : List (Act K V)) (k : K) :
    (∀ (i : Nat) (ci : CallSt K V),
      (run initState acts).calls[i]? = some ci → ci.key = k →
      inFlight ci.phase = true) →
    (∃ (i : Nat) (ci : CallSt K V),
      (run initState acts).calls[i]? = some ci ∧ ci.key = k) →
    ∃ c : Nat, lookup (run initState acts).mapping k = some c ∧
      ∀ (i : Nat) (ci : CallSt K V), (run initState acts).calls[i]? = some ci →
        ci.key = k → cellOf ci.phase = some c := by
  induction acts using List.reverseRecOn with
  | nil =>
    intro _ hex
    obtain ⟨i, ci, h, _⟩ := hex
    simp [run, initState] at h
  | append_singleton as a ih =>
    intro hflight hex
    have hs0 : Reach (run initState as) := ⟨as, rfl⟩
    have hInv0 := reach_inv hs0
    have heq : run initState (as ++ [a]) = exec (run initState as) a := by
      rw [run_append]; rfl
    rw [heq] at hflight hex ⊢
    set s0 := run initState as with hs0def
    have hflight0 : ∀ (i : Nat) (ci : CallSt K V), s0.calls[i]? = some ci →
        ci.key = k → inFlight ci.phase = true := by
      intro i ci h hkey
      rcases List.getElem?_eq_some_iff.1 h with ⟨hilt, _⟩
      obtain ⟨ci1, h1, e1, e2, e3⟩ := exec_fields_stable s0 a h
      have hf1 : inFlight ci1.phase = true := hflight i ci1 h1 (by rw [e1, hkey])
      have hrev := exec_inFlight_rev s0 a h1 hf1 hilt
      rw [h] at hrev
      obtain rfl : ci = ci1 := Option.some.inj hrev
      exact hf1
    by_cases hex0 : ∃ (i : Nat) (ci : CallSt K V),
        s0.calls[i]? = some ci ∧ ci.key = k
    · obtain ⟨c, hlook, hall⟩ := ih hflight0 hex0
      cases a with
      | work k' pv =>
        cases hl : lookup s0.mapping k' with
        | some c2 =>
          have hc2len := (hInv0.reg_valid k' c2 hl).1
          obtain ⟨cell, hcell⟩ : ∃ cell, s0.cells[c2]? = some cell :=
            ⟨_, List.getElem?_eq_some_iff.2 ⟨hc2len, rfl⟩⟩
          rw [exec_work_waiter_eq hl hcell]
          refine ⟨c, hlook, ?_⟩
          intro i ci h hkey
          rcases getElem?_append_one h with h' | ⟨hi, hci⟩
          · exact hall i ci h' hkey
          · rw [hci] at hkey ⊢
            obtain rfl : k' = k := hkey
            rw [hl] at hlook
            obtain rfl : c2 = c := Option.some.inj hlook
            rfl
        | none =>
          rw [exec_work_owner_eq hl]
          by_cases hkk : k = k'
          · subst hkk
            rw [hl] at hlook
            cases hlook
          · refine ⟨c, ?_, ?_⟩
            · show lookup ((k', s0.cells.length) :: s0.mapping) k = some c
              rw [lookup, if_neg hkk]
              exact hlook
            · intro i ci h hkey
              rcases getElem?_append_one h with h' | ⟨hi, hci⟩
              · exact hall i ci h' hkey
              · rw [hci] at hkey
                exact absurd hkey.symm hkk
      | finishWork i0 =>
        cases hc0 : s0.calls[i0]? with
        | none =>
          rw [exec_finishWork_noop_none hc0]
          exact ⟨c, hlook, hall⟩
        | some ci0 =>
          cases hph0 : ci0.phase with
          | running c0 =>
            by_cases hk0 : ci0.key = k
            · exfalso
              rw [exec_finishWork_eq hc0 hph0] at hflight
              rcases List.getElem?_eq_some_iff.1 hc0 with ⟨hi0lt, _⟩
              have hfl := hflight i0
                { ci0 with phase := .removedEntry c0 ci0.prodVal }
                (List.getElem?_set_self hi0lt) hk0
              simp [inFlight] at hfl
            · rw [exec_finishWork_eq hc0 hph0]
              refine ⟨c, ?_, ?_⟩
              · rw [lookup_removeKey_ne _ _ _ (fun he => hk0 he.symm)]
                exact hlook
              · intro i ci h hkey
                rcases set_phase_rev hc0 h with ⟨hne, h'⟩ | ⟨he, hd⟩
                · exact hall i ci h' hkey
                · rw [hd] at hkey
                  exact absurd hkey hk0
          | removedEntry c0 out =>
            rw [exec_finishWork_noop_phase hc0 (by rw [hph0]; intro c' hcon; cases hcon)]
            exact ⟨c, hlook, hall⟩
          | doneOwner c0 out =>
            rw [exec_finishWork_noop_phase hc0 (by rw [hph0]; intro c' hcon; cases hcon)]
            exact ⟨c, hlook, hall⟩
          | waiting c0 g0 =>
            rw [exec_finishWork_noop_phase hc0 (by rw [hph0]; intro c' hcon; cases hcon)]
            exact ⟨c, hlook, hall⟩
          | doneWaiter c0 v0 =>
            rw [exec_finishWork_noop_phase hc0 (by rw [hph0]; intro c' hcon; cases hcon)]
            exact ⟨c, hlook, hall⟩
          | panicked =>
            rw [exec_finishWork_noop_phase hc0 (by rw [hph0]; intro c' hcon; cases hcon)]
            exact ⟨c, hlook, hall⟩
      | wake i0 =>
        cases hc0 : s0.calls[i0]? with
        | none =>
          rw [exec_wake_noop_none hc0]
          exact ⟨c, hlook, hall⟩
        | some ci0 =>
          cases hph0 : ci0.phase with
          | removedEntry c0 out =>
            cases hcell0 : s0.cells[c0]? with
            | none =>
              rw [exec_wake_noop_cell hc0 hph0 hcell0]
              exact ⟨c, hlook, hall⟩
            | some cell0 =>
              rw [exec_wake_eq hc0 hph0 hcell0]
              refine ⟨c, hlook, ?_⟩
              intro i ci h hkey
              rcases set_phase_rev hc0 h with ⟨hne, h'⟩ | ⟨he, hd⟩
              · exact hall i ci h' hkey
              · exfalso
                rw [hd] at hkey
                have := hflight0 i0 ci0 hc0 hkey
                rw [hph0] at this
                simp [inFlight] at this
          | running c0 =>
            rw [exec_wake_noop_phase hc0 (by rw [hph0]; intro c' o' hcon; cases hcon)]
            exact ⟨c, hlook, hall⟩
          | doneOwner c0 out =>
            rw [exec_wake_noop_phase hc0 (by rw [hph0]; intro c' o' hcon; cases hcon)]
            exact ⟨c, hlook, hall⟩
          | waiting c0 g0 =>
            rw [exec_wake_noop_phase hc0 (by rw [hph0]; intro c' o' hcon; cases hcon)]
            exact ⟨c, hlook, hall⟩
          | doneWaiter c0 v0 =>
            rw [exec_wake_noop_phase hc0 (by rw [hph0]; intro c' o' hcon; cases hcon)]
            exact ⟨c, hlook, hall⟩
          | panicked =>
            rw [exec_wake_noop_phase hc0 (by rw [hph0]; intro c' o' hcon; cases hcon)]
            exact ⟨c, hlook, hall⟩
      | wait i0 =>
        cases hc0 : s0.calls[i0]? with
        | none =>
          rw [exec_wait_noop_none hc0]
          exact ⟨c, hlook, hall⟩
        | some ci0 =>
          cases hph0 : ci0.phase with
          | waiting c0 g0 =>
            cases hcell0 : s0.cells[c0]? with
            | none =>
              rw [exec_wait_noop_cell hc0 hph0 hcell0]
              exact ⟨c, hlook, hall⟩
            | some cell0 =>
              by_cases hlt : g0 < cell0.notifyCount
              · cases hslot0 : cell0.slot with
                | none =>
                  exact (inv_wait_none_absurd hInv0 hc0 hph0 hcell0 hlt hslot0).elim
                | some v0 =>
                  rw [exec_wait_resolve_eq hc0 hph0 hcell0 hlt hslot0]
                  refine ⟨c, hlook, ?_⟩
                  intro i ci h hkey
                  rcases set_phase_rev hc0 h with ⟨hne, h'⟩ | ⟨he, hd⟩
                  · exact hall i ci h' hkey
                  · exfalso
                    rcases List.getElem?_eq_some_iff.1 hc0 with ⟨hi0lt, _⟩
                    have hfl := hflight i0 { ci0 with phase := .doneWaiter c0 v0 }
                      (by rw [exec_wait_resolve_eq hc0 hph0 hcell0 hlt hslot0]
                          exact List.getElem?_set_self hi0lt)
                      (by rw [hd] at hkey; exact hkey)
                    simp [inFlight] at hfl
              · rw [exec_wait_blocked_eq hc0 hph0 hcell0 hlt]
                exact ⟨c, hlook, hall⟩
          | running c0 =>
            rw [exec_wait_noop_phase hc0 (by rw [hph0]; intro c' g' hcon; cases hcon)]
            exact ⟨c, hlook, hall⟩
          | removedEntry c0 out =>
            rw [exec_wait_noop_phase hc0 (by rw [hph0]; intro c' g' hcon; cases hcon)]
            exact ⟨c, hlook, hall⟩
          | doneOwner c0 out =>
            rw [exec_wait_noop_phase hc0 (by rw [hph0]; intro c' g' hcon; cases hcon)]
            exact ⟨c, hlook, hall⟩
          | doneWaiter c0 v0 =>
            rw [exec_wait_noop_phase hc0 (by rw [hph0]; intro c' g' hcon; cases hcon)]
            exact ⟨c, hlook, hall⟩
          | panicked =>
            rw [exec_wait_noop_phase hc0 (by rw [hph0]; intro c' g' hcon; cases hcon)]
            exact ⟨c, hlook, hall⟩
    · obtain ⟨i, ci, h, hkey⟩ := hex
      cases a with
      | work k' pv =>
        cases hl : lookup s0.mapping k' with
        | some c2 =>
          cases hcell : s0.cells[c2]? with
          | none =>
            rw [exec_work_noop_cell hl hcell] at h
            exact absurd ⟨i, ci, h, hkey⟩ hex0
          | some cell =>
            exfalso
            rw [exec_work_waiter_eq hl hcell] at h
            rcases getElem?_append_one h with h' | ⟨hi, hci⟩
            · exact hex0 ⟨i, ci, h', hkey⟩
            · rw [hci] at hkey
              obtain rfl : k' = k := hkey
              obtain ⟨j, cj, hj, hphj, hkj⟩ := registered_owner_running hInv0 hl
              exact hex0 ⟨j, cj, hj, hkj⟩
        | none =>
          by_cases hkk : k' = k
          · subst hkk
            rw [exec_work_owner_eq hl]
            refine ⟨s0.cells.length, ?_, ?_⟩
            · show lookup ((k', s0.cells.length) :: s0.mapping) k' = some s0.cells.length
              rw [lookup, if_pos rfl]
            · intro i2 ci2 h2 hkey2
              rcases getElem?_append_one h2 with h2' | ⟨hi2, hci2⟩
              · exact absurd ⟨i2, ci2, h2', hkey2⟩ hex0
              · rw [hci2]
                rfl
          · exfalso
            rw [exec_work_owner_eq hl] at h
            rcases getElem?_append_one h with h' | ⟨hi, hci⟩
            · exact hex0 ⟨i, ci, h', hkey⟩
            · rw [hci] at hkey
              exact hkk hkey
      | finishWork i0 =>
        exfalso
        rcases exec_calls_shape s0 (.finishWork i0) with hsh | ⟨c0, hsh⟩ |
          ⟨i1, ci1, p, hc1, hsh, _⟩
        · rw [hsh] at h
          exact hex0 ⟨i, ci, h, hkey⟩
        · have hlen := exec_calls_length_nonwork s0 (.finishWork i0)
            (by intro k' pv' hcon; cases hcon)
          rw [hsh] at hlen
          simp at hlen
        · rw [hsh] at h
          rcases set_phase_rev hc1 h with ⟨hne, h'⟩ | ⟨he, hd⟩
          · exact hex0 ⟨i, ci, h', hkey⟩
          · rw [hd] at hkey
            exact hex0 ⟨i1, ci1, hc1, hkey⟩
      | wake i0 =>
        exfalso
        rcases exec_calls_shape s0 (.wake i0) with hsh | ⟨c0, hsh⟩ |
          ⟨i1, ci1, p, hc1, hsh, _⟩
        · rw [hsh] at h
          exact hex0 ⟨i, ci, h, hkey⟩
        · have hlen := exec_calls_length_nonwork s0 (.wake i0)
            (by intro k' pv' hcon; cases hcon)
          rw [hsh] at hlen
          simp at hlen
        · rw [hsh] at h
          rcases set_phase_rev hc1 h with ⟨hne, h'⟩ | ⟨he, hd⟩
          · exact hex0 ⟨i, ci, h', hkey⟩
          · rw [hd] at hkey
            exact hex0 ⟨i1, ci1, hc1, hkey⟩
      | wait i0 =>
        exfalso
        rcases exec_calls_shape s0 (.wait i0) with hsh | ⟨c0, hsh⟩ |
          ⟨i1, ci1, p, hc1, hsh, _⟩
        · rw [hsh] at h
          exact hex0 ⟨i, ci, h, hkey⟩
        · have hlen := exec_calls_length_nonwork s0 (.wait i0)
            (by intro k' pv' hcon; cases hcon)
          rw [hsh] at hlen
          simp at hlen
        · rw [hsh] at h
          rcases set_phase_rev hc1 h with ⟨hne, h'⟩ | ⟨he, hd⟩
          · exact hex0 ⟨i, ci, h', hkey⟩
          · rw [hd] at hkey
            exact hex0 ⟨i1, ci1, hc1, hkey⟩

/-! ### Claim theorems -/

/-- Claim C3, counterexample: the claim that the work producer is not
invoked during the synchronous call to `work()` itself is false.  After
the single action `Act.work 0 5`, which models exactly the synchronous
body of `SingleFlight::work` and nothing of the returned future (the
phase is still `running` and `executedWork` is `false`), the producer
closure has already been invoked: `func()` is called eagerly at line 144
of the source while building the owner's `Either::Right` payload. -/
theorem producer_invoked_synchronously_cex :
    ((exec (initState (K := Nat) (V := Nat)) (.work 0 5)).calls[0]?).map
        (fun ci => (ci.invoked, executedWork ci.phase, ci.phase)) =
      some (true, false, .running 0) := by decide

/-- Claim C3, amended: the producer is invoked at most once per epoch of
a key — exactly the owner of each cell has invoked it (one owner per
cell), waiters never invoke theirs — and the asynchronous computation it
returns is executed only by owners, later, as part of the returned
future. -/
theorem producer_once_per_epoch (s : SFState K V) (hs : Reach s) :
    (∀ (i : Nat) (ci : CallSt K V), s.calls[i]? = some ci →
      (ci.invoked = true ↔ ownerCell ci.phase ≠ none)) ∧
    (∀ (i j : Nat) (ci cj : CallSt K V) (c : Nat), s.calls[i]? = some ci →
      s.calls[j]? = some cj → ownerCell ci.phase = some c →
      ownerCell cj.phase = some c → i = j) ∧
    (∀ (i : Nat) (ci : CallSt K V), s.calls[i]? = some ci →
      executedWork ci.phase = true → ownerCell ci.phase ≠ none) := by
  have hInv := reach_inv hs
  refine ⟨hInv.invoked_iff, hInv.owner_unique, ?_⟩
  intro i ci h hex
  cases hph : ci.phase with
  | removedEntry c out => simp [ownerCell]
  | doneOwner c out => simp [ownerCell]
  | running c => simp [ownerCell]
  | waiting c g => rw [hph] at hex; simp [executedWork] at hex
  | doneWaiter c v => rw [hph] at hex; simp [executedWork] at hex
  | panicked => rw [hph] at hex; simp [executedWork] at hex

theorem producer_once_per_epoch_witness :
    ((run (initState (K := Nat) (V := Nat)) [.work 0 5, .work 0 7]).calls[1]? =
      some ⟨0, 7, .waiting 0 0, false⟩) ∧
    ((⟨0, 7, .waiting 0 0, false⟩ : CallSt Nat Nat).invoked = true ↔
      ownerCell (Phase.waiting 0 0 : Phase Nat) ≠ none) :=
  ⟨by decide,
    (producer_once_per_epoch _ ⟨[.work 0 5, .work 0 7], rfl⟩).1 1
      ⟨0, 7, .waiting 0 0, false⟩ (by decide)⟩

/-- Claim C4: removal happens strictly before broadcasting completion.  In
every reachable state: every registered cell is still unwoken with an
empty slot (so completion implies prior removal); an owner that has
finished its work and is about to wake its cell (phase `removedEntry`)
no longer has that cell registered under any key; and the wake step
itself never modifies the registry. -/
theorem removal_before_broadcast (s : SFState K V) (hs : Reach s) :
    (∀ (k : K) (c : Nat), lookup s.mapping k = some c →
      genOf s c = 0 ∧ slotOf s c = none) ∧
    (∀ (i : Nat) (ci : CallSt K V) (c : Nat) (out : V),
      s.calls[i]? = some ci → ci.phase = .removedEntry c out →
      ∀ k : K, lookup s.mapping k ≠ some c) ∧
    (∀ i : Nat, (exec s (.wake i)).mapping = s.mapping) := by
  have hInv := reach_inv hs
  exact ⟨fun k c h => ⟨(hInv.reg_valid k c h).2.2, (hInv.reg_valid k c h).2.1⟩,
    fun i ci c out h hph => (hInv.removed_ok i ci c out h hph).2.2.2.2,
    fun i => exec_wake_mapping s i⟩

theorem removal_before_broadcast_witness :
    (lookup (run (initState (K := Nat) (V := Nat)) [.work 2 9]).mapping 2 =
      some 0) ∧
    (genOf (run (initState (K := Nat) (V := Nat)) [.work 2 9]) 0 = 0 ∧
     slotOf (run (initState (K := Nat) (V := Nat)) [.work 2 9]) 0 = none) :=
  ⟨by decide,
    (removal_before_broadcast _ ⟨[.work 2 9], rfl⟩).1 2 0 (by decide)⟩

/-- Claim C8: the owner's removal step deletes the registry entry for its
key unconditionally: the registry after `finishWork` is exactly the old
registry with every entry for that key removed — the removal matches on
the key only, with no identity check against the cell the entry holds,
so it applies equally when the current entry holds some cell `c'`
different from the owner's own cell `c`. -/
theorem remove_by_key_unconditional (s : SFState K V) (i : Nat)
    (ci : CallSt K V) (c c' : Nat) (h : s.calls[i]? = some ci)
    (hph : ci.phase = .running c) (hl : lookup s.mapping ci.key = some c') :
    (exec s (.finishWork i)).mapping = removeKey s.mapping ci.key ∧
    lookup (exec s (.finishWork i)).mapping ci.key = none := by
  rw [exec_finishWork_eq h hph]
  exact ⟨rfl, lookup_removeKey_self _ _⟩

/-- Witness for C8 at a state whose registry entry for key `0` holds
cell `7` while the finishing owner's own cell is `3`: the entry is
removed anyway. -/
theorem remove_by_key_unconditional_witness :
    ((exec (⟨[(0, 7)], [], [⟨0, 5, Phase.running 3, true⟩]⟩ : SFState Nat Nat)
        (.finishWork 0)).mapping =
      removeKey [(0, 7)] 0) ∧
    lookup (exec (⟨[(0, 7)], [], [⟨0, 5, Phase.running 3, true⟩]⟩ : SFState Nat Nat)
        (.finishWork 0)).mapping 0 = none :=
  remove_by_key_unconditional
    (⟨[(0, 7)], [], [⟨0, 5, Phase.running 3, true⟩]⟩ : SFState Nat Nat)
    0 ⟨0, 5, Phase.running 3, true⟩ 3 7 (by decide) (by decide) (by decide)

/-- Claim C9: the value slot transitions Empty → Set exactly once and is
never mutated afterwards: in any reachable state every cell has been
woken at most once, the slot is set exactly when the cell has been
woken, a set slot survives every further step unchanged, and the notify
count never decreases (no cell is ever re-armed). -/
theorem slot_write_once (s : SFState K V) (hs : Reach s) :
    (∀ c : Nat, genOf s c ≤ 1 ∧ (slotOf s c = none ↔ genOf s c = 0)) ∧
    (∀ (a : Act K V) (c : Nat) (v : V), slotOf s c = some v →
      slotOf (exec s a) c = some v) ∧
    (∀ (a : Act K V) (c : Nat), genOf s c ≤ genOf (exec s a) c) := by
  have hInv := reach_inv hs
  refine ⟨fun c => ⟨hInv.gen_le c, hInv.slot_gen c⟩, ?_,
    fun a c => exec_genOf_mono s a c⟩
  intro a c v hv
  exact exec_slot_stable s a
    (fun i0 ci0 c0 out h0 hph => (hInv.removed_ok i0 ci0 c0 out h0 hph).2.2.1) hv

theorem slot_write_once_witness :
    (slotOf (run (initState (K := Nat) (V := Nat))
        [.work 3 7, .finishWork 0, .wake 0]) 0 = some 7) ∧
    (slotOf (exec (run (initState (K := Nat) (V := Nat))
        [.work 3 7, .finishWork 0, .wake 0]) (.work 3 8)) 0 = some 7) :=
  ⟨by decide,
    (slot_write_once _ ⟨[.work 3 7, .finishWork 0, .wake 0], rfl⟩).2.1
      (.work 3 8) 0 7 (by decide)⟩

/-- Claim C10: the failure branch of `BroadcastOnceWaiter::wait` (the
`expect("value not set unexpectedly")` panic) is unreachable: no
reachable state contains a panicked call, and no step from a reachable
state produces one. -/
theorem wait_panic_unreachable (s : SFState K V) (hs : Reach s) :
    (∀ (i : Nat) (ci : CallSt K V), s.calls[i]? = some ci →
      ci.phase ≠ .panicked) ∧
    (∀ (a : Act K V) (i : Nat) (ci : CallSt K V),
      (exec s a).calls[i]? = some ci → ci.phase ≠ .panicked) := by
  have hInv := reach_inv hs
  exact ⟨hInv.no_panic, fun a i ci h => (inv_exec hInv a).no_panic i ci h⟩

theorem wait_panic_unreachable_witness :
    ((exec (run (initState (K := Nat) (V := Nat))
        [.work 0 5, .work 0 7, .finishWork 0, .wake 0])
        (.wait 1)).calls[1]? = some ⟨0, 7, .doneWaiter 0 5, false⟩) ∧
    (⟨0, 7, Phase.doneWaiter 0 5, false⟩ : CallSt Nat Nat).phase ≠
      Phase.panicked :=
  ⟨by decide,
    (wait_panic_unreachable _
        ⟨[.work 0 5, .work 0 7, .finishWork 0, .wake 0], rfl⟩).2
      (.wait 1) 1 ⟨0, 7, .doneWaiter 0 5, false⟩ (by decide)⟩

/-- Claim C7: a `work` call that finds no registry entry for its key (as
after a prior same-key call fully completed and was removed) triggers a
new, independent execution: it becomes owner of a brand-new cell that no
existing call references, its own producer is invoked, and driving its
returned future (`finishWork`, then `wake`) resolves it to its own
produced value. -/
theorem fresh_execution_after_completion (s : SFState K V) (hs : Reach s)
    (k : K) (pv : V) (hl : lookup s.mapping k = none) :
    ((exec s (.work k pv)).calls[s.calls.length]? =
      some ⟨k, pv, .running s.cells.length, true⟩) ∧
    (∀ (i : Nat) (ci : CallSt K V), s.calls[i]? = some ci →
      cellOf ci.phase ≠ some s.cells.length) ∧
    ((run s [.work k pv, .finishWork s.calls.length,
        .wake s.calls.length]).calls[s.calls.length]? =
      some ⟨k, pv, .doneOwner s.cells.length pv, true⟩) := by
  have hInv := reach_inv hs
  have e1 := @exec_work_owner_eq K V _ s k pv hl
  have hc1 : (exec s (.work k pv)).calls[s.calls.length]? =
      some ⟨k, pv, .running s.cells.length, true⟩ := by
    rw [e1]
    exact List.getElem?_concat_length _ _
  refine ⟨hc1, ?_, ?_⟩
  · intro i ci h hcell
    exact absurd (cell_of_lt hInv h hcell) (lt_irrefl _)
  · have hlen1 : (exec s (.work k pv)).calls.length = s.calls.length + 1 := by
      rw [e1]
      simp
    have e2 := exec_finishWork_eq (s := exec s (.work k pv)) hc1 rfl
    have hc2 : (exec (exec s (.work k pv)) (.finishWork s.calls.length)).calls[s.calls.length]? =
        some ⟨k, pv, .removedEntry s.cells.length pv, true⟩ := by
      rw [e2]
      exact List.getElem?_set_self (by rw [hlen1]; omega)
    have hcell2 : (exec (exec s (.work k pv)) (.finishWork s.calls.length)).cells[s.cells.length]? =
        some ⟨none, 0⟩ := by
      rw [e2]
      show (exec s (.work k pv)).cells[s.cells.length]? = some ⟨none, 0⟩
      rw [e1]
      exact List.getElem?_concat_length _ _
    have e3 := exec_wake_eq hc2 rfl hcell2
    show (exec (exec (exec s (.work k pv)) (.finishWork s.calls.length))
        (.wake s.calls.length)).calls[s.calls.length]? = _
    rw [e3]
    refine List.getElem?_set_self ?_
    have : (exec (exec s (.work k pv)) (.finishWork s.calls.length)).calls.length =
        s.calls.length + 1 := by
      rw [e2]
      show ((exec s (.work k pv)).calls.set _ _).length = _
      rw [List.length_set, hlen1]
    omega

theorem fresh_execution_after_completion_witness :
    (lookup (run (initState (K := Nat) (V := Nat))
        [.work 0 5, .finishWork 0, .wake 0]).mapping 0 = none) ∧
    ((run (run (initState (K := Nat) (V := Nat)) [.work 0 5, .finishWork 0, .wake 0])
        [.work 0 9, .finishWork 1, .wake 1]).calls[1]? =
      some ⟨0, 9, .doneOwner 1 9, true⟩) :=
  ⟨by decide,
    (fresh_execution_after_completion _
        ⟨[.work 0 5, .finishWork 0, .wake 0], rfl⟩ 0 9 (by decide)).2.2⟩

/-- Claim C2: the waiter path: a `work` call whose key is found registered
(mapping to cell `c`) never invokes its producer — neither during the
synchronous call (`invoked` is `false` on creation) nor at any later
point — and whenever its returned future resolves, the value is the
produced value of the owner whose execution was already in flight when
the call was made. -/
theorem waiter_path_no_invoke (s : SFState K V) (hs : Reach s)
    (k : K) (pv : V) (c : Nat) (hl : lookup s.mapping k = some c) :
    ∃ (j : Nat) (cj : CallSt K V), s.calls[j]? = some cj ∧
      cj.phase = .running c ∧ cj.key = k ∧
      ((exec s (.work k pv)).calls[s.calls.length]? =
        some ⟨k, pv, .waiting c 0, false⟩) ∧
      (∀ acts : List (Act K V), ∃ ci' : CallSt K V,
        (run (exec s (.work k pv)) acts).calls[s.calls.length]? = some ci' ∧
        ci'.invoked = false ∧
        ∀ v : V, resolvedVal ci'.phase = some v → v = cj.prodVal) := by
  have hInv := reach_inv hs
  obtain ⟨j, cj, hj, hphj, hkeyj⟩ := registered_owner_running hInv hl
  obtain ⟨hclen, _, hgen⟩ := hInv.reg_valid k c hl
  obtain ⟨cell, hcell⟩ : ∃ cell, s.cells[c]? = some cell :=
    ⟨_, List.getElem?_eq_some_iff.2 ⟨hclen, rfl⟩⟩
  have hcnt0 : cell.notifyCount = 0 := by
    unfold genOf at hgen; rw [hcell] at hgen; exact hgen
  have e1 := @exec_work_waiter_eq K V _ s k pv c cell hl hcell
  have hw1 : (exec s (.work k pv)).calls[s.calls.length]? =
      some ⟨k, pv, .waiting c 0, false⟩ := by
    rw [e1, ← hcnt0]
    exact List.getElem?_concat_length _ _
  refine ⟨j, cj, hj, hphj, hkeyj, hw1, ?_⟩
  intro acts
  obtain ⟨ci', h', hcell', hkey', hpv', hinv'⟩ :=
    run_cellOf_stable (hs.exec (.work k pv)) acts hw1 rfl
  refine ⟨ci', h', hinv', ?_⟩
  intro v hv
  obtain ⟨cj1, hj1, ho1, _, hpv1, _⟩ :=
    exec_ownerCell_stable s (.work k pv) hj
  obtain ⟨cj2, hj2, ho2, _, hpv2, _⟩ :=
    run_ownerCell_stable (exec s (.work k pv)) acts hj1
  have hInv2 := reach_inv ((hs.exec (.work k pv)).run acts)
  have hoc2 : ownerCell cj2.phase = some c := by
    rw [ho2, ho1, hphj]
    rfl
  have := resolved_matches_owner hInv2 h' hcell' hv hj2 hoc2
  rw [this, hpv2, hpv1]

theorem waiter_path_no_invoke_witness :
    ∃ (j : Nat) (cj : CallSt Nat Nat),
      (run (initState (K := Nat) (V := Nat)) [.work 4 5]).calls[j]? = some cj ∧
      cj.phase = .running 0 ∧ cj.key = 4 ∧
      ((exec (run (initState (K := Nat) (V := Nat)) [.work 4 5])
          (.work 4 7)).calls[1]? = some ⟨4, 7, .waiting 0 0, false⟩) ∧
      (∀ acts : List (Act Nat Nat), ∃ ci' : CallSt Nat Nat,
        (run (exec (run (initState (K := Nat) (V := Nat)) [.work 4 5])
            (.work 4 7)) acts).calls[1]? = some ci' ∧
        ci'.invoked = false ∧
        ∀ v : Nat, resolvedVal ci'.phase = some v → v = cj.prodVal) :=
  waiter_path_no_invoke _ ⟨[.work 4 5], rfl⟩ 4 7 0 (by decide)

/-- Claim C5: a waiter that registered its listener while the cell was the
live registry entry (hence, invariantly, at notify epoch 0) is never
missed: in any reachable state in which the cell has since been woken —
no matter how many steps later, and although the cell is by then no
longer registered under any key — its pending `wait` resolves and
returns exactly the value the owner set (the owner's produced value). -/
theorem registered_waiter_receives_value (s : SFState K V) (hs : Reach s)
    (i : Nat) (ci : CallSt K V) (c g : Nat)
    (h : s.calls[i]? = some ci) (hph : ci.phase = .waiting c g)
    (hwoken : 1 ≤ genOf s c) :
    g = 0 ∧
    ∃ (v : V) (cell : Shared V), s.cells[c]? = some cell ∧
      cell.slot = some v ∧
      (∀ k : K, lookup s.mapping k ≠ some c) ∧
      ((exec s (.wait i)).calls[i]? = some { ci with phase := .doneWaiter c v }) ∧
      ∃ (j : Nat) (cj : CallSt K V), s.calls[j]? = some cj ∧
        cj.phase = .doneOwner c v ∧ v = cj.prodVal := by
  have hInv := reach_inv hs
  obtain ⟨hclen, hg0⟩ := hInv.waiting_ok i ci c g h hph
  obtain ⟨cell, hcell⟩ : ∃ cell, s.cells[c]? = some cell :=
    ⟨_, List.getElem?_eq_some_iff.2 ⟨hclen, rfl⟩⟩
  have hgenc : genOf s c = cell.notifyCount := by
    unfold genOf; rw [hcell]
  cases hslot : cell.slot with
  | none =>
    exfalso
    have := (hInv.slot_gen c).1 (by unfold slotOf; rw [hcell]; exact hslot)
    omega
  | some v =>
    have hlt : g < cell.notifyCount := by omega
    obtain ⟨m, cm, hm, hphm⟩ := hInv.slot_owner c v
      (by unfold slotOf; rw [hcell]; exact hslot)
    refine ⟨hg0, v, cell, hcell, hslot, ?_, ?_, m, cm, hm, hphm,
      (hInv.done_owner_ok m cm c v hm hphm).1⟩
    · exact (hInv.done_owner_ok m cm c v hm hphm).2.2.2.2
    · rw [exec_wait_resolve_eq h hph hcell hlt hslot]
      rcases List.getElem?_eq_some_iff.1 h with ⟨hilt, _⟩
      exact List.getElem?_set_self hilt

theorem registered_waiter_receives_value_witness :
    (run (initState (K := Nat) (V := Nat))
        [.work 0 5, .work 0 7, .finishWork 0, .wake 0]).calls[1]? =
      some ⟨0, 7, .waiting 0 0, false⟩ ∧
    (0 = 0 ∧
     ∃ (v : Nat) (cell : Shared Nat),
      (run (initState (K := Nat) (V := Nat))
          [.work 0 5, .work 0 7, .finishWork 0, .wake 0]).cells[0]? = some cell ∧
      cell.slot = some v ∧
      (∀ k : Nat, lookup (run (initState (K := Nat) (V := Nat))
          [.work 0 5, .work 0 7, .finishWork 0, .wake 0]).mapping k ≠ some 0) ∧
      ((exec (run (initState (K := Nat) (V := Nat))
          [.work 0 5, .work 0 7, .finishWork 0, .wake 0]) (.wait 1)).calls[1]? =
        some ⟨0, 7, .doneWaiter 0 v, false⟩) ∧
      ∃ (j : Nat) (cj : CallSt Nat Nat),
        (run (initState (K := Nat) (V := Nat))
            [.work 0 5, .work 0 7, .finishWork 0, .wake 0]).calls[j]? = some cj ∧
        cj.phase = .doneOwner 0 v ∧ v = cj.prodVal) :=
  ⟨by decide,
    registered_waiter_receives_value _
      ⟨[.work 0 5, .work 0 7, .finishWork 0, .wake 0], rfl⟩
      1 ⟨0, 7, .waiting 0 0, false⟩ 0 0 (by decide) (by decide) (by decide)⟩

/-- Claim C6: if the owner's work never completes (failure or
abandonment — its `finishWork` never occurs in the rest of the trace),
then forever after: the owner is still `running`, the registry entry for
its key is still present and maps to its cell, the cell is still empty
and unwoken, and every waiter suspended on the cell stays blocked — its
`wait` step is a disabled no-op.  Nothing else can clean up: there is no
exit-path guard. -/
theorem abandoned_owner_stuck (s : SFState K V) (hs : Reach s)
    (i : Nat) (ci : CallSt K V) (c : Nat)
    (h : s.calls[i]? = some ci) (hph : ci.phase = .running c)
    (acts : List (Act K V)) (hno : Act.finishWork i ∉ acts) :
    ((run s acts).calls[i]? = some ci) ∧
    (lookup (run s acts).mapping ci.key = some c) ∧
    (slotOf (run s acts) c = none ∧ genOf (run s acts) c = 0) ∧
    (∀ (j : Nat) (cj : CallSt K V) (g : Nat),
      (run s acts).calls[j]? = some cj → cj.phase = .waiting c g →
      exec (run s acts) (.wait j) = run s acts) := by
  have hpers : ∀ (l : List (Act K V)), Act.finishWork i ∉ l →
      ∀ s0 : SFState K V, s0.calls[i]? = some ci →
      (run s0 l).calls[i]? = some ci := by
    intro l
    induction l with
    | nil => intro _ s0 h0; exact h0
    | cons a rest ih =>
      intro hnol s0 h0
      simp only [List.mem_cons, not_or] at hnol
      rw [run_cons]
      exact ih hnol.2 (exec s0 a)
        (exec_running_stable s0 a h0 hph (fun he => hnol.1 he.symm))
  have hci : (run s acts).calls[i]? = some ci := hpers acts hno s h
  have hInv' := reach_inv (hs.run acts)
  have hlook : lookup (run s acts).mapping ci.key = some c :=
    hInv'.owner_run i ci c hci hph
  obtain ⟨hclen, hslot, hgen⟩ := hInv'.reg_valid _ _ hlook
  refine ⟨hci, hlook, ⟨hslot, hgen⟩, ?_⟩
  intro j cj g hj hphj
  obtain ⟨hclen', hg0⟩ := hInv'.waiting_ok j cj c g hj hphj
  obtain ⟨cell, hcell⟩ : ∃ cell, (run s acts).cells[c]? = some cell :=
    ⟨_, List.getElem?_eq_some_iff.2 ⟨hclen', rfl⟩⟩
  have hcnt0 : cell.notifyCount = 0 := by
    unfold genOf at hgen
    rw [hcell] at hgen
    exact hgen
  exact exec_wait_blocked_eq hj hphj hcell (by omega)

theorem abandoned_owner_stuck_witness :
    ((run (run (initState (K := Nat) (V := Nat)) [.work 0 5])
        [.work 0 7, .wait 1, .work 3 2, .finishWork 2, .wake 2, .wait 1]).calls[0]? =
      some ⟨0, 5, .running 0, true⟩) ∧
    (lookup (run (run (initState (K := Nat) (V := Nat)) [.work 0 5])
        [.work 0 7, .wait 1, .work 3 2, .finishWork 2, .wake 2, .wait 1]).mapping 0 =
      some 0) ∧
    (slotOf (run (run (initState (K := Nat) (V := Nat)) [.work 0 5])
        [.work 0 7, .wait 1, .work 3 2, .finishWork 2, .wake 2, .wait 1]) 0 = none ∧
     genOf (run (run (initState (K := Nat) (V := Nat)) [.work 0 5])
        [.work 0 7, .wait 1, .work 3 2, .finishWork 2, .wake 2, .wait 1]) 0 = 0) ∧
    (∀ (j : Nat) (cj : CallSt Nat Nat) (g : Nat),
      (run (run (initState (K := Nat) (V := Nat)) [.work 0 5])
        [.work 0 7, .wait 1, .work 3 2, .finishWork 2, .wake 2, .wait 1]).calls[j]? =
          some cj →
      cj.phase = .waiting 0 g →
      exec (run (run (initState (K := Nat) (V := Nat)) [.work 0 5])
        [.work 0 7, .wait 1, .work 3 2, .finishWork 2, .wake 2, .wait 1]) (.wait j) =
      run (run (initState (K := Nat) (V := Nat)) [.work 0 5])
        [.work 0 7, .wait 1, .work 3 2, .finishWork 2, .wake 2, .wait 1]) :=
  abandoned_owner_stuck _ ⟨[.work 0 5], rfl⟩ 0 ⟨0, 5, .running 0, true⟩ 0
    (by decide) (by decide) _ (by decide)

/-- Claim C1: single execution and equal values.  Fix a key `k` and a
trace `acts1` at whose end at least one `work` call with key `k` exists
and every `work` call with key `k` is still in flight — i.e. the N ≥ 1
calls for `k` were all made while no earlier call for `k` had yet
completed.  Then there is one distinguished call `j` among them (the
owner of the shared cell) such that after any continuation `acts2`:
among those N calls, exactly `j` has invoked its work producer, only `j`
can have executed the work, and every one of them that has resolved
resolved to `j`'s produced value — so all resolved values are equal. -/
theorem single_execution_equal_values (acts1 acts2 : List (Act K V)) (k : K)
    (hflight : ∀ ci ∈ (run initState acts1).calls, ci.key = k →
      inFlight ci.phase = true)
    (hex : ∃ ci ∈ (run initState acts1).calls, ci.key = k) :
    ∃ (j : Nat) (cj : CallSt K V),
      (run initState acts1).calls[j]? = some cj ∧ cj.key = k ∧
      ∀ (i : Nat) (ci : CallSt K V), i < (run initState acts1).calls.length →
        (run initState (acts1 ++ acts2)).calls[i]? = some ci → ci.key = k →
        ((ci.invoked = true ↔ i = j) ∧
         (executedWork ci.phase = true → i = j) ∧
         (∀ v : V, resolvedVal ci.phase = some v → v = cj.prodVal)) := by
  have hflight' : ∀ (i : Nat) (ci : CallSt K V),
      (run initState acts1).calls[i]? = some ci → ci.key = k →
      inFlight ci.phase = true :=
    fun i ci h hk => hflight ci (List.getElem?_mem h) hk
  have hex' : ∃ (i : Nat) (ci : CallSt K V),
      (run initState acts1).calls[i]? = some ci ∧ ci.key = k := by
    obtain ⟨ci, hmem, hk⟩ := hex
    obtain ⟨i, hi⟩ := List.mem_iff_getElem?.1 hmem
    exact ⟨i, ci, hi, hk⟩
  obtain ⟨c, hlook, hall⟩ := attach_same_cell acts1 k hflight' hex'
  have hs1 : Reach (run initState acts1) := ⟨acts1, rfl⟩
  have hInv1 := reach_inv hs1
  obtain ⟨j, cj, hj, hphj, hkeyj⟩ := registered_owner_running hInv1 hlook
  refine ⟨j, cj, hj, hkeyj, ?_⟩
  intro i ci hilt h2 hkey
  have heq2 : run initState (acts1 ++ acts2) = run (run initState acts1) acts2 :=
    run_append ..
  obtain ⟨ci1, h1⟩ : ∃ ci1, (run initState acts1).calls[i]? = some ci1 :=
    ⟨_, List.getElem?_eq_some_iff.2 ⟨hilt, rfl⟩⟩
  obtain ⟨ci2, h2', ekey, epv, einv⟩ :=
    run_fields_stable (run initState acts1) acts2 h1
  rw [← heq2] at h2'
  obtain rfl : ci = ci2 := by rw [h2] at h2'; exact Option.some.inj h2'
  have hkey1 : ci1.key = k := by rw [← ekey]; exact hkey
  have hcell1 : cellOf ci1.phase = some c := hall i ci1 h1 hkey1
  obtain ⟨ci2', h2'', hc2, _, _, _⟩ := run_cellOf_stable hs1 acts2 h1 hcell1
  rw [← heq2] at h2''
  obtain rfl : ci = ci2' := by rw [h2] at h2''; exact Option.some.inj h2''
  obtain ⟨cj2, hj2, hoj2, _, hpvj2, _⟩ :=
    run_ownerCell_stable (run initState acts1) acts2 hj
  rw [← heq2] at hj2
  have hoc2 : ownerCell cj2.phase = some c := by rw [hoj2, hphj]; rfl
  have hInv2 : Inv (run initState (acts1 ++ acts2)) :=
    reach_inv ⟨acts1 ++ acts2, rfl⟩
  refine ⟨⟨?_, ?_⟩, ?_, ?_⟩
  · intro hinvk
    have hinv1 : ci1.invoked = true := by rw [← einv]; exact hinvk
    have hone := (hInv1.invoked_iff i ci1 h1).1 hinv1
    obtain ⟨c0, hc0⟩ : ∃ c0, ownerCell ci1.phase = some c0 :=
      Option.ne_none_iff_exists'.1 hone
    have hcc : cellOf ci1.phase = some c0 := ownerCell_cellOf hc0
    rw [hcell1] at hcc
    obtain rfl : c = c0 := Option.some.inj hcc
    exact hInv1.owner_unique i j ci1 cj c h1 hj hc0 (by rw [hphj]; rfl)
  · intro hij
    subst hij
    obtain rfl : ci1 = cj := by rw [h1] at hj; exact Option.some.inj hj
    rw [einv]
    exact (hInv1.invoked_iff i ci1 h1).2 (by rw [hphj]; simp [ownerCell])
  · intro hexec
    have hoci : ownerCell ci.phase = some c := by
      cases hphx : ci.phase with
      | removedEntry c0 out => rw [hphx] at hc2; simpa [ownerCell, cellOf] using hc2
      | doneOwner c0 out => rw [hphx] at hc2; simpa [ownerCell, cellOf] using hc2
      | running c0 => rw [hphx] at hc2; simpa [ownerCell, cellOf] using hc2
      | waiting c0 g0 => rw [hphx] at hexec; simp [executedWork] at hexec
      | doneWaiter c0 v0 => rw [hphx] at hexec; simp [executedWork] at hexec
      | panicked => rw [hphx] at hexec; simp [executedWork] at hexec
    exact hInv2.owner_unique i j ci cj2 c h2 hj2 hoci hoc2
  · intro v hv
    have hveq := resolved_matches_owner hInv2 h2 hc2 hv hj2 hoc2
    rw [hveq, hpvj2]

theorem single_execution_equal_values_witness :
    (∀ ci ∈ (run (initState (K := Nat) (V := Nat))
        [.work 0 5, .work 0 7]).calls, ci.key = 0 →
      inFlight ci.phase = true) ∧
    ∃ (j : Nat) (cj : CallSt Nat Nat),
      (run (initState (K := Nat) (V := Nat)) [.work 0 5, .work 0 7]).calls[j]? =
        some cj ∧ cj.key = 0 ∧
      ∀ (i : Nat) (ci : CallSt Nat Nat),
        i < (run (initState (K := Nat) (V := Nat)) [.work 0 5, .work 0 7]).calls.length →
        (run (initState (K := Nat) (V := Nat))
          ([.work 0 5, .work 0 7] ++ [.finishWork 0, .wake 0, .wait 1])).calls[i]? =
            some ci → ci.key = 0 →
        ((ci.invoked = true ↔ i = j) ∧
         (executedWork ci.phase = true → i = j) ∧
         (∀ v : Nat, resolvedVal ci.phase = some v → v = cj.prodVal)) :=
  ⟨by decide,
    single_execution_equal_values [.work 0 5, .work 0 7]
      [.finishWork 0, .wake 0, .wait 1] 0 (by decide) (by decide)⟩

example :
    (run (initState (K := Nat) (V := Nat))
        [.work 0 5, .work 0 7, .finishWork 0, .wake 0, .wait 1]).calls.map
          (fun ci => (ci.invoked, resolvedVal ci.phase)) =
      [(true, some 5), (false, some 5)] := by decide

example :
    (run (initState (K := Nat) (V := Nat))
        [.work 0 5, .finishWork 0, .wake 0, .work 0 7]).calls.map
          (fun ci => (ci.invoked, ci.phase)) =
      [(true, .doneOwner 0 5), (true, .running 1)] := by decide

end SingleFlightSpec
